import Mathlib

/-!
# Indel extraction and aggregation (`indels.go`)

A shallow embedding of the sequential content of `indels.go`:

* `getCigarOperationMapNoInsertions` : the table of per-operation offset functions;
* `getIndelsRecord` / `getIndels`    : the walk over the CIGAR operations of a record;
* `populateInsMap` / `populateDelMap`: aggregation of events into frequency tables;
* `writeInsMap` / `writeDelMap`      : the report text.

Conventions.

* Go `int` values are `Int` and a `[]byte` is the list of its bytes.  This reading is
  exact while no addition leaves the 64-bit range and slices have no spare capacity;
  the machine-level section below (`wrap64`, `ByteSlice`, `makeBytes`, `walkOp64`) models
  wrap-around, capacity and the allocation limit, and `getIndelsRecord64_eq` shows
  that the two readings agree on records that stay in range.
* Bases are `Char`s; `string(b)` is `String.mk b`.
* A run-time panic (slice out of range, `make` with a negative length, call of a
  missing map entry) is the value `none`.
* A Go `map` is an association list with pairwise distinct keys; the order of the
  list is the order in which `range` happens to visit the map, so a statement
  quantified over all tables covers every iteration order.
* A channel is the list of the values sent on it, in the order of the sends.
* The report functions return the text written to the file.
-/

namespace Indels

/-! ## Data model -/

/-- Struct `insertionOccurrence` of `indels.go`. -/
structure insertionOccurrence where
  query : String
  start : Int
  seq : String
  deriving DecidableEq

/-- Struct `deletionOccurrence` of `indels.go`. -/
structure deletionOccurrence where
  query : String
  start : Int
  length : Int
  deriving DecidableEq

/-- Modelled from the spec: the operation kinds of the alignment library
(`biogo/hts/sam`, not part of the repository), the nine kinds of the spec's
`AlignmentOperation`. -/
inductive CigarOpType where
  | CigarMatch
  | CigarInsertion
  | CigarDeletion
  | CigarSkipped
  | CigarSoftClipped
  | CigarHardClipped
  | CigarPadded
  | CigarEqual
  | CigarMismatch
  deriving DecidableEq

/-- Modelled from the spec: the one-letter name of an operation kind, what
`op.Type().String()` of the alignment library returns. -/
def CigarOpType.opString : CigarOpType → String
  | .CigarMatch => "M"
  | .CigarInsertion => "I"
  | .CigarDeletion => "D"
  | .CigarSkipped => "N"
  | .CigarSoftClipped => "S"
  | .CigarHardClipped => "H"
  | .CigarPadded => "P"
  | .CigarEqual => "="
  | .CigarMismatch => "X"

/-- Modelled from the spec: one alignment operation of the alignment library,
a kind (`op.Type()`) and a length (`op.Len()`). -/
structure CigarOp where
  opType : CigarOpType
  len : Int
  deriving DecidableEq

/-- Modelled from the spec: the alignment record of the alignment library, with
the fields `getIndels` reads: `Name`, `Pos` (negative when unmapped),
`Seq` (the bases after `Seq.Expand()`) and `Cigar`. -/
structure Record where
  Name : String
  Pos : Int
  Seq : List Char
  Cigar : List CigarOp
  deriving DecidableEq

/-! ## Go primitives -/

/-- The slice expression `seq[lo:hi]` on a slice whose capacity is its length:
it panics unless `0 ≤ lo ≤ hi ≤ len(seq)`. -/
def sliceBytes (seq : List Char) (lo hi : Int) : Option (List Char) :=
  if 0 ≤ lo ∧ lo ≤ hi ∧ hi ≤ (seq.length : Int) then
    some ((seq.drop lo.toNat).take (hi.toNat - lo.toNat))
  else none

/-- The allocation `make([]byte, n)` followed by the loop that stores `c` in every
cell: it panics when `n` is negative (the allocation limit is in `makeBytes`). -/
def makeFilled (c : Char) (n : Int) : Option (List Char) :=
  if 0 ≤ n then some (List.replicate n.toNat c) else none

/-- Lookup `m[k]` in a Go map: the value stored under `k`, if any. -/
def mapGet {κ ν : Type} [DecidableEq κ] : List (κ × ν) → κ → Option ν
  | [], _ => none
  | (k', v') :: rest, k => if k' = k then some v' else mapGet rest k

/-- Assignment `m[k] = v` in a Go map: replaces the value under `k`, or adds the key. -/
def mapSet {κ ν : Type} [DecidableEq κ] : List (κ × ν) → κ → ν → List (κ × ν)
  | [], k, v => [(k, v)]
  | (k', v') :: rest, k, v =>
    if k' = k then (k, v) :: rest else (k', v') :: mapSet rest k v

/-! ## Operation interpreter -/

/-- The type of the functions stored in the operation table. -/
abbrev CigarFn := Int → Int → Int → List Char → Option (Int × Int × List Char)

/-- Function `getCigarOperationMapNoInsertions`: the table literal, entry by entry. -/
def getCigarOperationMapNoInsertions : List (String × CigarFn) :=
  [ ("M", fun query_start ref_start length seq =>
      (sliceBytes seq query_start (query_start + length)).map fun s =>
        (query_start + length, ref_start + length, s)),
    ("I", fun query_start ref_start length _ =>
      some (query_start + length, ref_start, [])),
    ("D", fun query_start ref_start length _ =>
      (makeFilled '-' length).map fun gaps => (query_start, ref_start + length, gaps)),
    ("N", fun query_start ref_start length _ =>
      (makeFilled '*' length).map fun skip => (query_start, ref_start + length, skip)),
    ("S", fun query_start ref_start length _ =>
      some (query_start + length, ref_start, [])),
    ("H", fun query_start ref_start _ _ =>
      some (query_start, ref_start, [])),
    ("P", fun query_start ref_start _ _ =>
      some (query_start, ref_start, [])),
    ("=", fun query_start ref_start length seq =>
      (sliceBytes seq query_start (query_start + length)).map fun s =>
        (query_start + length, ref_start + length, s)),
    ("X", fun query_start ref_start length seq =>
      (sliceBytes seq query_start (query_start + length)).map fun s =>
        (query_start + length, ref_start + length, s)) ]

/-! ## Indel walker -/

/-- A value sent by `getIndels`: on `cIns` or on `cDel`. -/
inductive IndelEvent where
  | ins (e : insertionOccurrence)
  | del (e : deletionOccurrence)
  deriving DecidableEq

/-- The insertion events of a trace: what was sent on `cIns`, in order. -/
def insertionsOf : List IndelEvent → List insertionOccurrence
  | [] => []
  | .ins e :: rest => e :: insertionsOf rest
  | .del _ :: rest => insertionsOf rest

/-- The deletion events of a trace: what was sent on `cDel`, in order. -/
def deletionsOf : List IndelEvent → List deletionOccurrence
  | [] => []
  | .ins _ :: rest => deletionsOf rest
  | .del e :: rest => e :: deletionsOf rest

/-- The reference coordinate an event is reported at. -/
def IndelEvent.coord : IndelEvent → Int
  | .ins e => e.start
  | .del e => e.start

/-- The variables of the inner loop of `getIndels`, with the trace of the sends. -/
structure WalkState where
  qstart : Int
  rstart : Int
  sent : List IndelEvent
  deriving DecidableEq

/-- One iteration of `for _, op := range CIGAR` in `getIndels`. -/
def walkOp (QNAME : String) (SEQ : List Char) (st : WalkState) (op : CigarOp) :
    Option WalkState :=
  let operation := op.opType.opString
  let size := op.len
  (if operation = "I" then
      (sliceBytes SEQ st.qstart (st.qstart + size)).map fun b =>
        st.sent ++ [IndelEvent.ins { query := QNAME, start := st.rstart, seq := String.mk b }]
    else some st.sent).bind fun sent1 =>
  let sent2 :=
    if operation = "D" then
      sent1 ++ [IndelEvent.del { query := QNAME, start := st.rstart, length := size }]
    else sent1
  (mapGet getCigarOperationMapNoInsertions operation).bind fun f =>
  (f st.qstart st.rstart size SEQ).bind fun res =>
  some { qstart := res.1, rstart := res.2.1, sent := sent2 }

/-- The loop `for _, op := range CIGAR` of `getIndels`. -/
def walkOps (QNAME : String) (SEQ : List Char) : WalkState → List CigarOp → Option WalkState
  | st, [] => some st
  | st, op :: ops => (walkOp QNAME SEQ st op).bind fun st1 => walkOps QNAME SEQ st1 ops

/-- What `getIndels` does with one record: the errors sent on `cErr`, and the
final loop variables and trace of the walk (`none` when the walk panics). -/
structure RecordRun where
  cErr : List String
  walk : Option WalkState
  deriving DecidableEq

/-- The body of `for samLine := range(cSR)` in `getIndels`, for one record.  The
send on `cErr` is not followed by a `continue` or `return`: the walk runs either way. -/
def getIndelsRecord (samLine : Record) : RecordRun :=
  let QNAME := samLine.Name
  let POS := samLine.Pos
  let SEQ := samLine.Seq
  let CIGAR := samLine.Cigar
  { cErr := if POS < 0 then ["unmapped read"] else [],
    walk := walkOps QNAME SEQ { qstart := 0, rstart := POS, sent := [] } CIGAR }

/-- What one `getIndels` worker did: the errors sent, and the events sent
(`none` when the worker panicked). -/
structure WorkerRun where
  cErr : List String
  sent : Option (List IndelEvent)
  deriving DecidableEq

/-- Function `getIndels` on the records it receives from `cSR`. -/
def getIndels : List Record → WorkerRun
  | [] => { cErr := [], sent := some [] }
  | samLine :: rest =>
    let run := getIndelsRecord samLine
    match run.walk with
    | none => { cErr := run.cErr, sent := none }
    | some fin =>
      let more := getIndels rest
      { cErr := run.cErr ++ more.cErr, sent := more.sent.map fun evs => fin.sent ++ evs }

/-! ## Aggregators -/

/-- The insertion table `map[int]map[string][]string`. -/
abbrev InsMap := List (Int × List (String × List String))

/-- The deletion table `map[int]map[int][]string`. -/
abbrev DelMap := List (Int × List (Int × List String))

/-- The body of `for ins := range(cIns)` in `populateInsMap`. -/
def insMapAdd (insMap : InsMap) (ins : insertionOccurrence) : InsMap :=
  let q := ins.query
  let strt := ins.start
  let sq := ins.seq
  match mapGet insMap strt with
  | some inner =>
    match mapGet inner sq with
    | some ids => mapSet insMap strt (mapSet inner sq (ids ++ [q]))
    | none => mapSet insMap strt (mapSet inner sq [q])
  | none => mapSet insMap strt (mapSet [] sq [q])

/-- Function `populateInsMap`: the table sent on `cInsMap` once `cIns` is closed. -/
def populateInsMap (cIns : List insertionOccurrence) : InsMap :=
  cIns.foldl insMapAdd []

/-- The body of `for del := range(cDel)` in `populateDelMap`. -/
def delMapAdd (delMap : DelMap) (del : deletionOccurrence) : DelMap :=
  let q := del.query
  let strt := del.start
  let ln := del.length
  match mapGet delMap strt with
  | some inner =>
    match mapGet inner ln with
    | some ids => mapSet delMap strt (mapSet inner ln (ids ++ [q]))
    | none => mapSet delMap strt (mapSet inner ln [q])
  | none => mapSet delMap strt (mapSet [] ln [q])

/-- Function `populateDelMap`: the table sent on `cDelMap` once `cDel` is closed. -/
def populateDelMap (cDel : List deletionOccurrence) : DelMap :=
  cDel.foldl delMapAdd []

/-! ## Report writer -/

/-- The keys of a table after `sort.Ints(keys)`. -/
def sortedKeys {ν : Type} (m : List (Int × ν)) : List Int :=
  (m.map Prod.fst).insertionSort (· ≤ ·)

/-- The value `m[k][v]` of a two-level table (`nil`, of length 0, when absent). -/
def supporters {σ : Type} [DecidableEq σ] (m : List (Int × List (σ × List String)))
    (k : Int) (v : σ) : List String :=
  (mapGet ((mapGet m k).getD []) v).getD []

/-- The buckets `(k, v, m[k][v])` for which the loops of `writeInsMap` / `writeDelMap`
reach the `WriteString` of a data line, in the order they reach it. -/
def reported {σ : Type} [DecidableEq σ] (m : List (Int × List (σ × List String))) :
    List (Int × σ × List String) :=
  (sortedKeys m).flatMap fun k =>
    (((mapGet m k).getD []).map Prod.fst).filterMap fun v =>
      if (supporters m k v).length < 2 then none else some (k, v, supporters m k v)

/-- The data line `writeInsMap` writes for a bucket. -/
def insLine (b : Int × String × List String) : String :=
  let c1 := toString (b.1 + 1)
  let c2 := b.2.1
  let c3 := String.intercalate "|" b.2.2
  c1 ++ "\t" ++ c2 ++ "\t" ++ c3 ++ "\n"

/-- The data line `writeDelMap` writes for a bucket. -/
def delLine (b : Int × Int × List String) : String :=
  let c1 := toString (b.1 + 1)
  let c2 := toString b.2.1
  let c3 := String.intercalate "|" b.2.2
  c1 ++ "\t" ++ c2 ++ "\t" ++ c3 ++ "\n"

/-- The data lines `writeInsMap` writes, in order. -/
def insDataLines (insmap : InsMap) : List String := (reported insmap).map insLine

/-- The data lines `writeDelMap` writes, in order. -/
def delDataLines (delmap : DelMap) : List String := (reported delmap).map delLine

/-- Function `writeInsMap`: the text of `insertions.txt` (file operations succeeding). -/
def writeInsMap (insmap : InsMap) : String :=
  "ref_start\tinsertion\tsamples\n" ++ String.join (insDataLines insmap)

/-- Whether an operation kind consumes the reference. -/
def CigarOpType.consumesRef : CigarOpType → Bool
  | .CigarMatch | .CigarEqual | .CigarMismatch | .CigarDeletion | .CigarSkipped => true
  | _ => false

/-- Whether an operation kind consumes the query. -/
def CigarOpType.consumesQuery : CigarOpType → Bool
  | .CigarMatch | .CigarEqual | .CigarMismatch | .CigarInsertion | .CigarSoftClipped => true
  | _ => false

/-- The sum of the lengths of the reference-consuming operations. -/
def refLen (ops : List CigarOp) : Int :=
  ((ops.filter fun op => op.opType.consumesRef).map CigarOp.len).sum

/-- The positions, in ascending order, of the operations of kind `t`. -/
def opPositions (t : CigarOpType) (ops : List CigarOp) : List Nat :=
  (List.range ops.length).filter fun i => (ops[i]?).map CigarOp.opType = some t

/-- The loop variables of `getIndels` immediately before the operation at position `i`
is applied: the walk over the first `i` operations. -/
def stateBefore (samLine : Record) (i : Nat) : Option WalkState :=
  walkOps samLine.Name samLine.Seq { qstart := 0, rstart := samLine.Pos, sent := [] }
    (samLine.Cigar.take i)

/-- The events one operation sends, given the loop variables before it. -/
def emitted (QNAME : String) (SEQ : List Char) (st : WalkState) (op : CigarOp) :
    List IndelEvent :=
  match op.opType with
  | .CigarInsertion =>
    [IndelEvent.ins { query := QNAME, start := st.rstart,
                      seq := String.mk ((sliceBytes SEQ st.qstart (st.qstart + op.len)).getD []) }]
  | .CigarDeletion => [IndelEvent.del { query := QNAME, start := st.rstart, length := op.len }]
  | _ => []


/-! ## Example records -/

/-- A mapped read `id1` at reference offset 10 with operations `5M2I3M`. -/
def readIns1 : Record :=
  { Name := "id1", Pos := 10, Seq := "GGGGGACTTT".toList,
    Cigar := [⟨.CigarMatch, 5⟩, ⟨.CigarInsertion, 2⟩, ⟨.CigarMatch, 3⟩] }

/-- A mapped read with an insertion, a deletion and a skip: `2M1I2M2D1N2M`. -/
def readMixed : Record :=
  { Name := "r7", Pos := 100, Seq := "ACGTACG".toList,
    Cigar := [⟨.CigarMatch, 2⟩, ⟨.CigarInsertion, 1⟩, ⟨.CigarMatch, 2⟩,
              ⟨.CigarDeletion, 2⟩, ⟨.CigarSkipped, 1⟩, ⟨.CigarMatch, 2⟩] }

/-- A record without reference placement (`Pos = -1`) that carries an insertion `2I`. -/
def readUnmapped : Record :=
  { Name := "u1", Pos := -1, Seq := "AC".toList, Cigar := [⟨.CigarInsertion, 2⟩] }

/-! ## Specification vocabulary for the tables -/

/-- The supporter list stored at `(coordinate k, signature v)`, if the table has that bucket. -/
def bucketAt {σ : Type} [DecidableEq σ] (m : List (Int × List (σ × List String)))
    (k : Int) (v : σ) : Option (List String) :=
  (mapGet m k).bind fun inner => mapGet inner v

/-- All the buckets `(coordinate, signature, supporters)` of a table. -/
def buckets {σ : Type} (m : List (Int × List (σ × List String))) :
    List (Int × σ × List String) :=
  m.flatMap fun p => p.2.map fun q => (p.1, q.1, q.2)

/-- A table is a Go map of Go maps: no coordinate occurs twice, and no signature
occurs twice under one coordinate. -/
def TableWF {σ : Type} (m : List (Int × List (σ × List String))) : Prop :=
  (m.map Prod.fst).Nodup ∧ ∀ p ∈ m, (p.2.map Prod.fst).Nodup

instance {σ : Type} [DecidableEq σ] (m : List (Int × List (σ × List String))) :
    Decidable (TableWF m) := by
  unfold TableWF
  infer_instance

/-- The update both aggregators make for one event: append `q` to the bucket at `(k, v)`. -/
def tableAdd {σ : Type} [DecidableEq σ] (m : List (Int × List (σ × List String)))
    (k : Int) (v : σ) (q : String) : List (Int × List (σ × List String)) :=
  match mapGet m k with
  | some inner =>
    match mapGet inner v with
    | some ids => mapSet m k (mapSet inner v (ids ++ [q]))
    | none => mapSet m k (mapSet inner v [q])
  | none => mapSet m k (mapSet [] v [q])

/-- The names of the events with a given key, in arrival order, as a bucket:
no bucket when there is no such event. -/
def supportOf {σ : Type} [DecidableEq σ] (ts : List (Int × σ × String)) (k : Int) (v : σ) :
    List String :=
  (ts.filter fun t => t.1 = k ∧ t.2.1 = v).map fun t => t.2.2

/-- The insertion events of a record, as sent by `getIndels` (none if its walk panics). -/
def recordInsertions (samLine : Record) : List insertionOccurrence :=
  match (getIndelsRecord samLine).walk with
  | some fin => insertionsOf fin.sent
  | none => []

/-- The deletion events of a record, as sent by `getIndels` (none if its walk panics). -/
def recordDeletions (samLine : Record) : List deletionOccurrence :=
  match (getIndelsRecord samLine).walk with
  | some fin => deletionsOf fin.sent
  | none => []

/-! ## The end-to-end scenarios -/

/-- A read at reference offset 10 with operations `5M2I3M`. -/
def scenarioIns (name : String) (seq : List Char) : Record :=
  { Name := name, Pos := 10, Seq := seq,
    Cigar := [⟨.CigarMatch, 5⟩, ⟨.CigarInsertion, 2⟩, ⟨.CigarMatch, 3⟩] }

/-- A read at reference offset 0 with operations `4M3D4M`. -/
def scenarioDel (name : String) (seq : List Char) : Record :=
  { Name := name, Pos := 0, Seq := seq,
    Cigar := [⟨.CigarMatch, 4⟩, ⟨.CigarDeletion, 3⟩, ⟨.CigarMatch, 4⟩] }

/-- A mapped read `id1` whose operations `3M2I1P2I3M` insert `AC` twice at offset 13. -/
def readTwice : Record :=
  { Name := "id1", Pos := 10, Seq := "GGGACACTTT".toList,
    Cigar := [⟨.CigarMatch, 3⟩, ⟨.CigarInsertion, 2⟩, ⟨.CigarPadded, 1⟩,
              ⟨.CigarInsertion, 2⟩, ⟨.CigarMatch, 3⟩] }

/-- The read `id2`, identical to `readIns1` but for its name. -/
def readIns2 : Record :=
  { Name := "id2", Pos := 10, Seq := "GGGGGACTTT".toList,
    Cigar := [⟨.CigarMatch, 5⟩, ⟨.CigarInsertion, 2⟩, ⟨.CigarMatch, 3⟩] }

/-- An insertion table with three buckets, two of them with at least two supporters. -/
def tableIns : InsMap :=
  [(15, [("G", ["id3"]), ("AC", ["id1", "id2"])]), (3, [("T", ["a", "b", "c"])])]

/-- A deletion table with three buckets, one of them with at least two supporters. -/
def tableDel : DelMap :=
  [(40, [(1, ["id9"])]), (4, [(3, ["id1", "id2"]), (2, ["id5"])])]

/-! ## Specification vocabulary for the operation interpreter -/

/-- The Operation Interpreter: the table entry of a kind applied to its arguments
(`none` when the entry is missing or the call panics). -/
def interpret (t : CigarOpType) (query_start ref_start length : Int) (seq : List Char) :
    Option (Int × Int × List Char) :=
  (mapGet getCigarOperationMapNoInsertions t.opString).bind fun f =>
    f query_start ref_start length seq

/-- The sum of the lengths of the query-consuming operations. -/
def queryLen (ops : List CigarOp) : Int :=
  ((ops.filter fun op => op.opType.consumesQuery).map CigarOp.len).sum

/-! ## Specification vocabulary for the report text -/

/-- An insertion table whose coordinate 15 is visited at `G` first, then at `AC`. -/
def tableInsGFirst : InsMap := [(15, [("G", ["a", "b"]), ("AC", ["c", "d"])])]

/-- The same insertion table, visited at `AC` first, then at `G`. -/
def tableInsACFirst : InsMap := [(15, [("AC", ["c", "d"]), ("G", ["a", "b"])])]

/-- A deletion table whose coordinate 4 is visited at length 3 first, then at length 2. -/
def tableDel3First : DelMap := [(4, [(3, ["a", "b"]), (2, ["c", "d"])])]

/-! ## Machine-level reading: 64-bit `int`, slice capacity, allocation limit

The definitions above read a Go `int` as an integer and a `[]byte` as the list of its
bytes.  That reading is exact as long as no addition leaves the 64-bit range and the
slice has no spare capacity (as the bases returned by `Seq.Expand()`).  The definitions
below drop both assumptions: additions wrap as Go's `int` does on a 64-bit
platform, a slice carries its capacity, and `make` refuses lengths beyond the
allocation limit of the runtime (exhaustion of memory below that limit is not modelled). -/

/-- The largest Go `int` on a 64-bit platform, `2^63 - 1`. -/
def maxInt64 : Int := 9223372036854775807

/-- The value a 64-bit `int` holds for the mathematical result `x`: two's complement
wrap-around into `[-2^63, 2^63)`. -/
def wrap64 (x : Int) : Int :=
  (x + 9223372036854775808) % 18446744073709551616 - 9223372036854775808

/-- Go's `a + b` on 64-bit `int`. -/
def add64 (a b : Int) : Int := wrap64 (a + b)

/-- A Go `[]byte`: the cells from its first element up to its capacity, and its length. -/
structure ByteSlice where
  cells : List Char
  len : Nat
  deriving DecidableEq

/-- The capacity `cap(s)`. -/
def ByteSlice.cap (s : ByteSlice) : Nat := s.cells.length

/-- The bytes of a slice, what `string(s)` converts: the first `len(s)` cells. -/
def ByteSlice.bytes (s : ByteSlice) : List Char := s.cells.take s.len

/-- A slice without spare capacity holding the given bytes, as `make([]byte, n)` returns
once filled. -/
def ByteSlice.ofList (l : List Char) : ByteSlice := { cells := l, len := l.length }

/-- The slice expression `seq[lo:hi]` on a slice: it panics unless
`0 ≤ lo ≤ hi ≤ cap(seq)`; the result starts at cell `lo` and has length `hi - lo`. -/
def sliceExpr (seq : ByteSlice) (lo hi : Int) : Option ByteSlice :=
  if 0 ≤ lo ∧ lo ≤ hi ∧ hi ≤ (seq.cap : Int) then
    some { cells := seq.cells.drop lo.toNat, len := hi.toNat - lo.toNat }
  else none

/-- The allocation `make([]byte, n)` followed by the loop that stores `c` in every cell:
it panics when `n` is negative or beyond the allocation limit `maxAlloc` of the runtime. -/
def makeBytes (maxAlloc : Int) (c : Char) (n : Int) : Option ByteSlice :=
  if 0 ≤ n ∧ n ≤ maxAlloc then some (ByteSlice.ofList (List.replicate n.toNat c)) else none

/-- The allocation limit of the Go runtime on linux/amd64, `2^48` bytes. -/
def maxAllocAmd64 : Int := 281474976710656

/-- The type of the functions stored in the operation table, at machine level. -/
abbrev CigarFn64 := Int → Int → Int → ByteSlice → Option (Int × Int × ByteSlice)

/-- Function `getCigarOperationMapNoInsertions` at machine level, entry by entry. -/
def getCigarOperationMapNoInsertions64 (maxAlloc : Int) : List (String × CigarFn64) :=
  [ ("M", fun query_start ref_start length seq =>
      (sliceExpr seq query_start (add64 query_start length)).map fun s =>
        (add64 query_start length, add64 ref_start length, s)),
    ("I", fun query_start ref_start length _ =>
      some (add64 query_start length, ref_start, ByteSlice.ofList [])),
    ("D", fun query_start ref_start length _ =>
      (makeBytes maxAlloc '-' length).map fun gaps =>
        (query_start, add64 ref_start length, gaps)),
    ("N", fun query_start ref_start length _ =>
      (makeBytes maxAlloc '*' length).map fun skip =>
        (query_start, add64 ref_start length, skip)),
    ("S", fun query_start ref_start length _ =>
      some (add64 query_start length, ref_start, ByteSlice.ofList [])),
    ("H", fun query_start ref_start _ _ =>
      some (query_start, ref_start, ByteSlice.ofList [])),
    ("P", fun query_start ref_start _ _ =>
      some (query_start, ref_start, ByteSlice.ofList [])),
    ("=", fun query_start ref_start length seq =>
      (sliceExpr seq query_start (add64 query_start length)).map fun s =>
        (add64 query_start length, add64 ref_start length, s)),
    ("X", fun query_start ref_start length seq =>
      (sliceExpr seq query_start (add64 query_start length)).map fun s =>
        (add64 query_start length, add64 ref_start length, s)) ]

/-- The Operation Interpreter at machine level: the table entry of a kind applied to
its arguments (`none` when the entry is missing or the call panics). -/
def interpret64 (maxAlloc : Int) (t : CigarOpType) (query_start ref_start length : Int)
    (seq : ByteSlice) : Option (Int × Int × ByteSlice) :=
  (mapGet (getCigarOperationMapNoInsertions64 maxAlloc) t.opString).bind fun f =>
    f query_start ref_start length seq

/-- One iteration of `for _, op := range CIGAR` in `getIndels`, at machine level. -/
def walkOp64 (maxAlloc : Int) (QNAME : String) (SEQ : ByteSlice) (st : WalkState)
    (op : CigarOp) : Option WalkState :=
  let operation := op.opType.opString
  let size := op.len
  (if operation = "I" then
      (sliceExpr SEQ st.qstart (add64 st.qstart size)).map fun b =>
        st.sent ++
          [IndelEvent.ins { query := QNAME, start := st.rstart, seq := String.mk b.bytes }]
    else some st.sent).bind fun sent1 =>
  let sent2 :=
    if operation = "D" then
      sent1 ++ [IndelEvent.del { query := QNAME, start := st.rstart, length := size }]
    else sent1
  (mapGet (getCigarOperationMapNoInsertions64 maxAlloc) operation).bind fun f =>
  (f st.qstart st.rstart size SEQ).bind fun res =>
  some { qstart := res.1, rstart := res.2.1, sent := sent2 }

/-- The loop `for _, op := range CIGAR` of `getIndels`, at machine level. -/
def walkOps64 (maxAlloc : Int) (QNAME : String) (SEQ : ByteSlice) :
    WalkState → List CigarOp → Option WalkState
  | st, [] => some st
  | st, op :: ops =>
    (walkOp64 maxAlloc QNAME SEQ st op).bind fun st1 => walkOps64 maxAlloc QNAME SEQ st1 ops

/-- The body of `for samLine := range(cSR)` in `getIndels`, for one record, at machine
level; `Seq.Expand()` returns a slice made with its exact length. -/
def getIndelsRecord64 (maxAlloc : Int) (samLine : Record) : RecordRun :=
  let QNAME := samLine.Name
  let POS := samLine.Pos
  let SEQ := ByteSlice.ofList samLine.Seq
  let CIGAR := samLine.Cigar
  { cErr := if POS < 0 then ["unmapped read"] else [],
    walk := walkOps64 maxAlloc QNAME SEQ { qstart := 0, rstart := POS, sent := [] } CIGAR }

/-- A mapped read at the largest reference offset a Go `int` holds, with `1I1M1I`. -/
def readAtMaxInt : Record :=
  { Name := "r1", Pos := 9223372036854775807, Seq := "ACG".toList,
    Cigar := [⟨.CigarInsertion, 1⟩, ⟨.CigarMatch, 1⟩, ⟨.CigarInsertion, 1⟩] }

/-- Three bases `ACG` in a slice of capacity 8. -/
def spareCapacitySlice : ByteSlice := { cells := "ACGTTTTT".toList, len := 3 }

/-! ## Lemmas on the walker -/

theorem sliceBytes_length {seq b : List Char} {lo hi : Int}
    (h : sliceBytes seq lo hi = some b) : (b.length : Int) = hi - lo := by
  unfold sliceBytes at h
  split at h
  · rename_i hb
    simp only [Option.some.injEq] at h
    subst h
    simp only [List.length_take, List.length_drop]
    omega
  · simp at h

theorem walkOp_some {QNAME : String} {SEQ : List Char} {st st1 : WalkState} {op : CigarOp}
    (h : walkOp QNAME SEQ st op = some st1) :
    st1.rstart = st.rstart + (if op.opType.consumesRef then op.len else 0) ∧
    st1.qstart = st.qstart + (if op.opType.consumesQuery then op.len else 0) ∧
    st1.sent = st.sent ++ emitted QNAME SEQ st op ∧
    (op.opType = .CigarInsertion →
      ∃ b, sliceBytes SEQ st.qstart (st.qstart + op.len) = some b) := by
  obtain ⟨t, n⟩ := op
  cases t <;>
    simp [walkOp, CigarOpType.opString, getCigarOperationMapNoInsertions, mapGet,
      Option.bind_eq_some, Option.map_eq_some] at h <;>
    first
    | (obtain ⟨a, ha, rfl⟩ := h
       simp [CigarOpType.consumesRef, CigarOpType.consumesQuery, emitted, ha])
    | (obtain ⟨_, rfl⟩ := h
       simp [CigarOpType.consumesRef, CigarOpType.consumesQuery, emitted])

theorem opPositions_cons (t : CigarOpType) (op : CigarOp) (ops : List CigarOp) :
    opPositions t (op :: ops) =
      (if op.opType = t then [0] else []) ++ (opPositions t ops).map (· + 1) := by
  unfold opPositions
  rw [List.length_cons, List.range_succ_eq_map, List.filter_cons, List.filter_map]
  by_cases h : op.opType = t
  · simp [h, Function.comp_def]
  · simp [h, Function.comp_def]

theorem insertionsOf_append (a b : List IndelEvent) :
    insertionsOf (a ++ b) = insertionsOf a ++ insertionsOf b := by
  induction a with
  | nil => rfl
  | cons e a ih => cases e <;> simp [insertionsOf, ih]

theorem deletionsOf_append (a b : List IndelEvent) :
    deletionsOf (a ++ b) = deletionsOf a ++ deletionsOf b := by
  induction a with
  | nil => rfl
  | cons e a ih => cases e <;> simp [deletionsOf, ih]

theorem length_eq_insertions_add_deletions (l : List IndelEvent) :
    l.length = (insertionsOf l).length + (deletionsOf l).length := by
  induction l with
  | nil => rfl
  | cons e l ih => cases e <;> simp [insertionsOf, deletionsOf, ih] <;> omega

theorem walkOps_sent {QNAME : String} {SEQ : List Char} :
    ∀ (ops : List CigarOp) (st fin : WalkState), walkOps QNAME SEQ st ops = some fin →
      ∃ tail, fin.sent = st.sent ++ tail
  | [], st, fin, h => by
    simp only [walkOps, Option.some.injEq] at h
    exact ⟨[], by simp [h]⟩
  | op :: ops, st, fin, h => by
    simp only [walkOps, Option.bind_eq_some] at h
    obtain ⟨st1, h1, h2⟩ := h
    obtain ⟨tail, ht⟩ := walkOps_sent ops st1 fin h2
    exact ⟨emitted QNAME SEQ st op ++ tail, by rw [ht, (walkOp_some h1).2.2.1, List.append_assoc]⟩

/-- The insertion events of a completed walk, against the positions of the INSERT
operations: the event of position `i` is built from the loop variables reached after
the first `i` operations. -/
theorem walkOps_insertions {QNAME : String} {SEQ : List Char} :
    ∀ (ops : List CigarOp) (st fin : WalkState), walkOps QNAME SEQ st ops = some fin →
      ∃ tail, fin.sent = st.sent ++ tail ∧
        List.Forall₂
          (fun i ev => ∃ s op b, ops[i]? = some op ∧ op.opType = .CigarInsertion ∧
            walkOps QNAME SEQ st (ops.take i) = some s ∧
            sliceBytes SEQ s.qstart (s.qstart + op.len) = some b ∧
            ev = { query := QNAME, start := s.rstart, seq := String.mk b })
          (opPositions .CigarInsertion ops) (insertionsOf tail)
  | [], st, fin, h => by
    simp only [walkOps, Option.some.injEq] at h
    exact ⟨[], by simp [h], by simp [opPositions, insertionsOf]⟩
  | op :: ops, st, fin, h => by
    simp only [walkOps, Option.bind_eq_some] at h
    obtain ⟨st1, h1, h2⟩ := h
    obtain ⟨tail, ht, hf⟩ := walkOps_insertions ops st1 fin h2
    obtain ⟨-, -, hs, hi⟩ := walkOp_some h1
    refine ⟨emitted QNAME SEQ st op ++ tail, by rw [ht, hs, List.append_assoc], ?_⟩
    rw [opPositions_cons, insertionsOf_append]
    apply List.rel_append
    · by_cases hk : op.opType = .CigarInsertion
      · obtain ⟨b, hb⟩ := hi hk
        simp only [hk, if_true, emitted, insertionsOf, hb, Option.getD_some]
        refine List.Forall₂.cons ⟨st, op, b, by simp, hk, by simp [walkOps], hb, rfl⟩
          List.Forall₂.nil
      · have : insertionsOf (emitted QNAME SEQ st op) = [] := by
          unfold emitted
          split <;> simp_all [insertionsOf]
        simp [hk, this]
    · rw [List.forall₂_map_left_iff]
      refine hf.imp ?_
      rintro i ev ⟨s, o, b, hio, hko, hw, hb, rfl⟩
      exact ⟨s, o, b, by simpa using hio, hko, by simp [walkOps, h1, hw], hb, rfl⟩

/-- The reference offset after a completed walk. -/
theorem walkOps_rstart {QNAME : String} {SEQ : List Char} :
    ∀ (ops : List CigarOp) (st fin : WalkState), walkOps QNAME SEQ st ops = some fin →
      fin.rstart = st.rstart + refLen ops
  | [], st, fin, h => by
    simp only [walkOps, Option.some.injEq] at h
    simp [h, refLen]
  | op :: ops, st, fin, h => by
    simp only [walkOps, Option.bind_eq_some] at h
    obtain ⟨st1, h1, h2⟩ := h
    have ih := walkOps_rstart ops st1 fin h2
    obtain ⟨hr, -, -, -⟩ := walkOp_some h1
    rw [ih, hr]
    unfold refLen
    by_cases hc : op.opType.consumesRef = true
    · simp [List.filter_cons, hc]; ring
    · simp [List.filter_cons, hc]

/-- The numbers of events of a completed walk. -/
theorem walkOps_counts {QNAME : String} {SEQ : List Char} :
    ∀ (ops : List CigarOp) (st fin : WalkState), walkOps QNAME SEQ st ops = some fin →
      ∃ tail, fin.sent = st.sent ++ tail ∧
        (insertionsOf tail).length =
          (ops.filter fun op => op.opType = .CigarInsertion).length ∧
        (deletionsOf tail).length =
          (ops.filter fun op => op.opType = .CigarDeletion).length
  | [], st, fin, h => by
    simp only [walkOps, Option.some.injEq] at h
    exact ⟨[], by simp [h], by simp [insertionsOf], by simp [deletionsOf]⟩
  | op :: ops, st, fin, h => by
    simp only [walkOps, Option.bind_eq_some] at h
    obtain ⟨st1, h1, h2⟩ := h
    obtain ⟨tail, ht, hi, hd⟩ := walkOps_counts ops st1 fin h2
    obtain ⟨-, -, hs, -⟩ := walkOp_some h1
    refine ⟨emitted QNAME SEQ st op ++ tail, by rw [ht, hs, List.append_assoc], ?_, ?_⟩
    · rw [insertionsOf_append, List.length_append, hi]
      obtain ⟨t, n⟩ := op
      cases t <;> simp [emitted, insertionsOf, List.filter_cons]
      omega
    · rw [deletionsOf_append, List.length_append, hd]
      obtain ⟨t, n⟩ := op
      cases t <;> simp [emitted, deletionsOf, List.filter_cons]
      omega

/-! ## Lemmas on the tables -/

theorem mapGet_mapSet {κ ν : Type} [DecidableEq κ] (m : List (κ × ν)) (k k1 : κ) (v : ν) :
    mapGet (mapSet m k v) k1 = if k = k1 then some v else mapGet m k1 := by
  induction m with
  | nil => simp [mapSet, mapGet]
  | cons p m ih =>
    obtain ⟨k0, v0⟩ := p
    by_cases h0 : k0 = k
    · subst h0
      by_cases h1 : k0 = k1 <;> simp [mapSet, mapGet, h1]
    · by_cases h1 : k0 = k1
      · subst h1
        have : ¬ k = k0 := fun h => h0 h.symm
        simp [mapSet, mapGet, h0, this]
      · simp [mapSet, mapGet, h0, h1, ih]

theorem mapGet_of_mem {κ ν : Type} [DecidableEq κ] {m : List (κ × ν)} {k : κ} {v : ν}
    (hnd : (m.map Prod.fst).Nodup) (hmem : (k, v) ∈ m) : mapGet m k = some v := by
  induction m with
  | nil => simp at hmem
  | cons p m ih =>
    obtain ⟨k0, v0⟩ := p
    simp only [List.map_cons, List.nodup_cons, List.mem_map, not_exists, not_and] at hnd
    rcases List.mem_cons.mp hmem with h | h
    · simp only [Prod.mk.injEq] at h
      obtain ⟨rfl, rfl⟩ := h
      simp [mapGet]
    · have hne : k0 ≠ k := fun hk => hnd.1 (k, v) h hk.symm
      simp [mapGet, hne, ih hnd.2 h]

theorem bucketAt_tableAdd {σ : Type} [DecidableEq σ] (m : List (Int × List (σ × List String)))
    (k k1 : Int) (v v1 : σ) (q : String) :
    bucketAt (tableAdd m k v q) k1 v1 =
      if k = k1 ∧ v = v1 then some ((bucketAt m k1 v1).getD [] ++ [q]) else bucketAt m k1 v1 := by
  unfold tableAdd bucketAt
  cases hk : mapGet m k with
  | none =>
    by_cases h1 : k = k1
    · subst h1
      by_cases h2 : v = v1 <;> simp [mapGet_mapSet, hk, h2, mapGet]
    · simp [mapGet_mapSet, h1]
  | some inner =>
    cases hv : mapGet inner v with
    | none =>
      by_cases h1 : k = k1
      · subst h1
        by_cases h2 : v = v1
        · subst h2
          simp [mapGet_mapSet, hk, hv]
        · simp [mapGet_mapSet, hk, hv, h2]
      · simp [mapGet_mapSet, hv, h1]
    | some ids =>
      by_cases h1 : k = k1
      · subst h1
        by_cases h2 : v = v1
        · subst h2
          simp [mapGet_mapSet, hk, hv]
        · simp [mapGet_mapSet, hk, hv, h2]
      · simp [mapGet_mapSet, hv, h1]

theorem supportOf_cons {σ : Type} [DecidableEq σ] (t : Int × σ × String)
    (ts : List (Int × σ × String)) (k : Int) (v : σ) :
    supportOf (t :: ts) k v =
      if t.1 = k ∧ t.2.1 = v then t.2.2 :: supportOf ts k v else supportOf ts k v := by
  unfold supportOf
  by_cases h : t.1 = k ∧ t.2.1 = v
  · rw [List.filter_cons, if_pos (by simpa using h), if_pos h, List.map_cons]
  · rw [List.filter_cons, if_neg (by simpa using h), if_neg h]

theorem bucketAt_foldl_tableAdd {σ : Type} [DecidableEq σ] (ts : List (Int × σ × String)) :
    ∀ (m : List (Int × List (σ × List String))) (k : Int) (v : σ),
      bucketAt (ts.foldl (fun acc t => tableAdd acc t.1 t.2.1 t.2.2) m) k v =
        if supportOf ts k v = [] then bucketAt m k v
        else some ((bucketAt m k v).getD [] ++ supportOf ts k v) := by
  induction ts with
  | nil => intro m k v; simp [supportOf]
  | cons t ts ih =>
    intro m k v
    rw [List.foldl_cons, ih, bucketAt_tableAdd, supportOf_cons]
    by_cases h : t.1 = k ∧ t.2.1 = v
    · rw [if_pos h, if_pos h]
      by_cases h0 : supportOf ts k v = []
      · simp [h0]
      · simp [h0]
    · rw [if_neg h, if_neg h]

theorem insMapAdd_eq (m : InsMap) (e : insertionOccurrence) :
    insMapAdd m e = tableAdd m e.start e.seq e.query := by
  simp only [insMapAdd, tableAdd]
  cases mapGet m e.start with
  | none => rfl
  | some inner => cases mapGet inner e.seq <;> rfl

theorem delMapAdd_eq (m : DelMap) (e : deletionOccurrence) :
    delMapAdd m e = tableAdd m e.start e.length e.query := by
  simp only [delMapAdd, tableAdd]
  cases mapGet m e.start with
  | none => rfl
  | some inner => cases mapGet inner e.length <;> rfl

theorem populateInsMap_eq (cIns : List insertionOccurrence) :
    populateInsMap cIns =
      (cIns.map fun e => (e.start, e.seq, e.query)).foldl
        (fun acc t => tableAdd acc t.1 t.2.1 t.2.2) [] := by
  unfold populateInsMap
  rw [List.foldl_map]
  congr 1
  funext m e
  exact insMapAdd_eq m e

theorem populateDelMap_eq (cDel : List deletionOccurrence) :
    populateDelMap cDel =
      (cDel.map fun e => (e.start, e.length, e.query)).foldl
        (fun acc t => tableAdd acc t.1 t.2.1 t.2.2) [] := by
  unfold populateDelMap
  rw [List.foldl_map]
  congr 1
  funext m e
  exact delMapAdd_eq m e

/-- The bucket `populateInsMap` builds at `(k, v)`: the names of the events with that
anchor and those bases, in arrival order; no bucket without such an event. -/
theorem bucketAt_populateInsMap (cIns : List insertionOccurrence) (k : Int) (v : String) :
    bucketAt (populateInsMap cIns) k v =
      if (cIns.filter fun e => e.start = k ∧ e.seq = v) = [] then none
      else some ((cIns.filter fun e => e.start = k ∧ e.seq = v).map fun e => e.query) := by
  rw [populateInsMap_eq, bucketAt_foldl_tableAdd]
  simp [supportOf, List.filter_map, Function.comp_def, bucketAt, mapGet]

/-- The bucket `populateDelMap` builds at `(k, v)`: the names of the events with that
start and that length, in arrival order; no bucket without such an event. -/
theorem bucketAt_populateDelMap (cDel : List deletionOccurrence) (k : Int) (v : Int) :
    bucketAt (populateDelMap cDel) k v =
      if (cDel.filter fun e => e.start = k ∧ e.length = v) = [] then none
      else some ((cDel.filter fun e => e.start = k ∧ e.length = v).map fun e => e.query) := by
  rw [populateDelMap_eq, bucketAt_foldl_tableAdd]
  simp [supportOf, List.filter_map, Function.comp_def, bucketAt, mapGet]

/-! ## Lemmas on the report -/

theorem supporters_of_mem {σ : Type} [DecidableEq σ] {m : List (Int × List (σ × List String))}
    (hwf : TableWF m) {p : Int × List (σ × List String)} (hp : p ∈ m)
    {q : σ × List String} (hq : q ∈ p.2) : supporters m p.1 q.1 = q.2 := by
  have h1 : mapGet m p.1 = some p.2 := mapGet_of_mem hwf.1 hp
  have h2 : mapGet p.2 q.1 = some q.2 := mapGet_of_mem (hwf.2 p hp) hq
  simp [supporters, h1, h2]

/-- Under one coordinate of a well-formed table, the inner loop of the writers
reaches the `WriteString` for the buckets with at least two supporters. -/
theorem reported_row {σ : Type} [DecidableEq σ] {m : List (Int × List (σ × List String))}
    (hwf : TableWF m) {p : Int × List (σ × List String)} (hp : p ∈ m) :
    ((((mapGet m p.1).getD []).map Prod.fst).filterMap fun v =>
        if (supporters m p.1 v).length < 2 then none else some (p.1, v, supporters m p.1 v)) =
      (p.2.map fun q => (p.1, q.1, q.2)).filter fun b => decide (2 ≤ b.2.2.length) := by
  have h1 : mapGet m p.1 = some p.2 := mapGet_of_mem hwf.1 hp
  rw [h1, Option.getD_some, List.filterMap_map, List.filter_map]
  have hs : ∀ q ∈ p.2, supporters m p.1 q.1 = q.2 := fun q hq => supporters_of_mem hwf hp hq
  generalize p.2 = inner at hs
  induction inner with
  | nil => rfl
  | cons q inner ih =>
    have hq := hs q (List.mem_cons_self _ _)
    have ih1 := ih fun q1 hq1 => hs q1 (List.mem_cons_of_mem _ hq1)
    by_cases h2 : q.2.length < 2
    · have h3 : ¬ 2 ≤ q.2.length := by omega
      simp only [List.filterMap_cons, Function.comp_apply, hq, h2, if_true, List.filter_cons,
        h3, decide_False, Bool.false_eq_true, if_false]
      exact ih1
    · have h3 : 2 ≤ q.2.length := by omega
      simp only [List.filterMap_cons, Function.comp_apply, hq, h2, if_false, List.filter_cons,
        h3, decide_True, if_true, List.map_cons]
      rw [ih1]

/-- The buckets a writer reports are, up to order, the buckets of the table with at
least two supporters. -/
theorem reported_perm {σ : Type} [DecidableEq σ] {m : List (Int × List (σ × List String))}
    (hwf : TableWF m) :
    (reported m).Perm ((buckets m).filter fun b => decide (2 ≤ b.2.2.length)) := by
  unfold reported buckets sortedKeys
  rw [List.filter_flatMap]
  refine (List.Perm.flatMap_right _ (List.perm_insertionSort _ _)).trans ?_
  rw [List.flatMap_map]
  exact List.Perm.of_eq (List.flatMap_congr fun p hp => reported_row hwf hp)

/-- In a well-formed table no `(coordinate, signature)` names two buckets. -/
theorem buckets_keys_nodup {σ : Type} {m : List (Int × List (σ × List String))}
    (hwf : TableWF m) : ((buckets m).map fun b => (b.1, b.2.1)).Nodup := by
  obtain ⟨h1, h2⟩ := hwf
  unfold buckets
  induction m with
  | nil => simp
  | cons p m ih =>
    simp only [List.map_cons, List.nodup_cons, List.mem_map, not_exists, not_and] at h1
    rw [List.flatMap_cons, List.map_append]
    refine List.Nodup.append ?_ (ih h1.2 fun q hq => h2 q (List.mem_cons_of_mem _ hq)) ?_
    · rw [List.map_map]
      have h3 := h2 p (List.mem_cons_self _ _)
      have : ((fun b : Int × σ × List String => (b.1, b.2.1)) ∘
          fun q : σ × List String => (p.1, q.1, q.2)) = (fun s => (p.1, s)) ∘ Prod.fst := rfl
      rw [this, ← List.map_map]
      exact h3.map fun a b hab => (Prod.mk.inj hab).2
    · intro x hx1 hx2
      simp only [List.mem_map, List.mem_flatMap] at hx1 hx2
      obtain ⟨b1, ⟨q1, -, rfl⟩, rfl⟩ := hx1
      obtain ⟨b2, ⟨p2, hp2, q2, -, rfl⟩, hx⟩ := hx2
      simp only [Prod.mk.injEq] at hx
      exact h1.1 p2 hp2 hx.1

theorem buckets_nodup {σ : Type} {m : List (Int × List (σ × List String))}
    (hwf : TableWF m) : (buckets m).Nodup :=
  List.Nodup.of_map _ (buckets_keys_nodup hwf)

/-- A reported bucket is a bucket of the table and has at least two supporters;
this needs no assumption on the table. -/
theorem bucketAt_of_mem_reported {σ : Type} [DecidableEq σ]
    {m : List (Int × List (σ × List String))} {b : Int × σ × List String}
    (hb : b ∈ reported m) : bucketAt m b.1 b.2.1 = some b.2.2 ∧ 2 ≤ b.2.2.length := by
  unfold reported at hb
  simp only [List.mem_flatMap, List.mem_filterMap] at hb
  obtain ⟨k, -, v, -, hv⟩ := hb
  split at hv
  · simp at hv
  · rename_i hlen
    simp only [Option.some.injEq] at hv
    subst hv
    refine ⟨?_, by simpa using hlen⟩
    simp only [supporters, bucketAt] at hlen ⊢
    cases h1 : mapGet m k with
    | none => simp [h1, mapGet] at hlen
    | some inner =>
      cases h2 : mapGet inner v with
      | none => simp [h1, h2] at hlen
      | some ids => simp [h1, h2]

/-! ## Lemmas on the supporters of the buckets -/

/-- Every event of a completed walk carries the name the walk was given. -/
theorem walkOps_query {QNAME : String} {SEQ : List Char} :
    ∀ (ops : List CigarOp) (st fin : WalkState), walkOps QNAME SEQ st ops = some fin →
      ∃ tail, fin.sent = st.sent ++ tail ∧
        (∀ e ∈ insertionsOf tail, e.query = QNAME) ∧ ∀ e ∈ deletionsOf tail, e.query = QNAME
  | [], st, fin, h => by
    simp only [walkOps, Option.some.injEq] at h
    exact ⟨[], by simp [h], by simp [insertionsOf], by simp [deletionsOf]⟩
  | op :: ops, st, fin, h => by
    simp only [walkOps, Option.bind_eq_some] at h
    obtain ⟨st1, h1, h2⟩ := h
    obtain ⟨tail, ht, hi, hd⟩ := walkOps_query ops st1 fin h2
    obtain ⟨-, -, hs, -⟩ := walkOp_some h1
    refine ⟨emitted QNAME SEQ st op ++ tail, by rw [ht, hs, List.append_assoc], ?_, ?_⟩
    · intro e he
      rw [insertionsOf_append, List.mem_append] at he
      rcases he with he | he
      · obtain ⟨t, n⟩ := op
        cases t <;> simp [emitted, insertionsOf] at he
        rw [he]
      · exact hi e he
    · intro e he
      rw [deletionsOf_append, List.mem_append] at he
      rcases he with he | he
      · obtain ⟨t, n⟩ := op
        cases t <;> simp [emitted, deletionsOf] at he
        rw [he]
      · exact hd e he

theorem recordInsertions_query (samLine : Record) :
    ∀ e ∈ recordInsertions samLine, e.query = samLine.Name := by
  intro e he
  unfold recordInsertions at he
  split at he
  · rename_i fin hfin
    obtain ⟨tail, ht, hi, -⟩ := walkOps_query samLine.Cigar _ fin hfin
    simp only [List.nil_append] at ht
    rw [ht] at he
    exact hi e he
  · simp at he

theorem recordDeletions_query (samLine : Record) :
    ∀ e ∈ recordDeletions samLine, e.query = samLine.Name := by
  intro e he
  unfold recordDeletions at he
  split at he
  · rename_i fin hfin
    obtain ⟨tail, ht, -, hd⟩ := walkOps_query samLine.Cigar _ fin hfin
    simp only [List.nil_append] at ht
    rw [ht] at he
    exact hd e he
  · simp at he

theorem length_le_one_of_nodup_const {κ : Type} {c : κ} :
    ∀ (l : List κ), l.Nodup → (∀ x ∈ l, x = c) → l.length ≤ 1
  | [], _, _ => by simp
  | [_], _, _ => by simp
  | a :: b :: t, hnd, hall => by
    exfalso
    have ha : a = c := hall a (by simp)
    have hb : b = c := hall b (by simp)
    rw [List.nodup_cons] at hnd
    exact hnd.1 (by rw [ha, hb]; simp)

/-- When the records have pairwise distinct names and no record sends two events with
the same key, the names collected under one key, from any interleaving of the
events of the records, are pairwise distinct. -/
theorem support_nodup {α κ : Type} [DecidableEq κ] (rs : List Record) (f : Record → List α)
    (key : α → κ) (name : α → String)
    (hname : ∀ r ∈ rs, ∀ e ∈ f r, name e = r.Name)
    (hkeys : ∀ r ∈ rs, ((f r).map key).Nodup)
    (hids : (rs.map Record.Name).Nodup)
    (evs : List α) (hperm : evs.Perm (rs.flatMap f)) (c : κ) :
    ((evs.filter fun e => decide (key e = c)).map name).Nodup := by
  rw [((hperm.filter _).map name).nodup_iff, List.filter_flatMap, List.map_flatMap]
  refine List.Nodup.sublist ?_ hids
  clear hperm hids
  induction rs with
  | nil => simp
  | cons r rs ih =>
    rw [List.flatMap_cons, List.map_cons]
    have hrest := ih (fun r1 h1 => hname r1 (List.mem_cons_of_mem _ h1))
      (fun r1 h1 => hkeys r1 (List.mem_cons_of_mem _ h1))
    suffices hhead : (((f r).filter fun e => decide (key e = c)).map name).Sublist [r.Name] from
      hhead.append hrest
    have hnd : (((f r).filter fun e => decide (key e = c)).map key).Nodup :=
      (hkeys r (List.mem_cons_self _ _)).sublist ((List.filter_sublist _).map key)
    have hall : ∀ x ∈ ((f r).filter fun e => decide (key e = c)).map key, x = c := by
      intro x hx
      obtain ⟨e, he, rfl⟩ := List.mem_map.mp hx
      simpa using (List.mem_filter.mp he).2
    have hlen := length_le_one_of_nodup_const _ hnd hall
    rw [List.length_map] at hlen
    have hn : ∀ e ∈ (f r).filter fun e => decide (key e = c), name e = r.Name :=
      fun e he => hname r (List.mem_cons_self _ _) e (List.mem_filter.mp he).1
    match hl : (f r).filter fun e => decide (key e = c), hlen, hn with
    | [], _, _ => simp
    | [e], _, hn => simp [hn e (by simp)]
    | _ :: _ :: _, hlen, _ => simp at hlen

theorem length_eq_ten {l : List Char} (h : l.length = 10) :
    ∃ b0 b1 b2 b3 b4 b5 b6 b7 b8 b9, l = [b0, b1, b2, b3, b4, b5, b6, b7, b8, b9] := by
  match l, h with
  | [b0, b1, b2, b3, b4, b5, b6, b7, b8, b9], _ =>
    exact ⟨b0, b1, b2, b3, b4, b5, b6, b7, b8, b9, rfl⟩

theorem length_eq_eight {l : List Char} (h : l.length = 8) :
    ∃ b0 b1 b2 b3 b4 b5 b6 b7, l = [b0, b1, b2, b3, b4, b5, b6, b7] := by
  match l, h with
  | [b0, b1, b2, b3, b4, b5, b6, b7], _ => exact ⟨b0, b1, b2, b3, b4, b5, b6, b7, rfl⟩

theorem mem_reported_iff {σ : Type} [DecidableEq σ] {m : List (Int × List (σ × List String))}
    (hwf : TableWF m) (b : Int × σ × List String) :
    b ∈ reported m ↔ b ∈ buckets m ∧ 2 ≤ b.2.2.length := by
  rw [(reported_perm hwf).mem_iff, List.mem_filter]
  simp

theorem reported_nodup {σ : Type} [DecidableEq σ] {m : List (Int × List (σ × List String))}
    (hwf : TableWF m) : (reported m).Nodup :=
  (reported_perm hwf).nodup_iff.mpr ((buckets_nodup hwf).filter _)

/-! ## The walker: claims -/

/-- C1: for a mapped record whose walk completes, the insertion events sent by
`getIndels` are, in order, exactly one per INSERT operation: the event of the INSERT
operation at position `i` carries the record's name, the reference offset held just
before that operation, and the bases `SEQ[qstart : qstart+len]` for the query offset held
just before it, so as many bases as the operation is long.  No other operation
contributes an insertion event. -/
theorem getIndels_insertions_exact (samLine : Record) (fin : WalkState)
    (hmapped : 0 ≤ samLine.Pos)
    (hwalk : (getIndelsRecord samLine).walk = some fin) :
    List.Forall₂
      (fun i ev => ∃ s op b, samLine.Cigar[i]? = some op ∧
        op.opType = CigarOpType.CigarInsertion ∧
        stateBefore samLine i = some s ∧
        sliceBytes samLine.Seq s.qstart (s.qstart + op.len) = some b ∧
        ev.query = samLine.Name ∧ ev.start = s.rstart ∧ ev.seq = String.mk b ∧
        (ev.seq.length : Int) = op.len)
      (opPositions CigarOpType.CigarInsertion samLine.Cigar) (insertionsOf fin.sent) := by
  have _ := hmapped
  obtain ⟨tail, ht, hf⟩ := walkOps_insertions samLine.Cigar _ fin hwalk
  simp only [List.nil_append] at ht
  rw [ht]
  refine hf.imp ?_
  rintro i ev ⟨s, op, b, hio, hk, hw, hb, rfl⟩
  refine ⟨s, op, b, hio, hk, hw, hb, rfl, rfl, rfl, ?_⟩
  have hl := sliceBytes_length hb
  simp only [String.length]
  omega

/-- C1, on the read `id1` at offset 10 with `5M2I3M`: one event, anchored at 15. -/
theorem getIndels_insertions_exact_witness :
    (0 ≤ readIns1.Pos ∧
      (getIndelsRecord readIns1).walk =
        some { qstart := 10, rstart := 18, sent := [IndelEvent.ins ⟨"id1", 15, "AC"⟩] }) ∧
    List.Forall₂
      (fun i ev => ∃ s op b, readIns1.Cigar[i]? = some op ∧
        op.opType = CigarOpType.CigarInsertion ∧
        stateBefore readIns1 i = some s ∧
        sliceBytes readIns1.Seq s.qstart (s.qstart + op.len) = some b ∧
        ev.query = readIns1.Name ∧ ev.start = s.rstart ∧ ev.seq = String.mk b ∧
        (ev.seq.length : Int) = op.len)
      (opPositions CigarOpType.CigarInsertion readIns1.Cigar)
      (insertionsOf [IndelEvent.ins ⟨"id1", 15, "AC"⟩]) :=
  ⟨⟨by decide, by decide⟩,
    getIndels_insertions_exact readIns1
      { qstart := 10, rstart := 18, sent := [IndelEvent.ins ⟨"id1", 15, "AC"⟩] }
      (by decide) (by decide)⟩

/-- C3, as the claim states it, fails: the record `u1` has `Pos = -1`; `getIndels`
sends the error and then walks its operation `2I`, sending an insertion event
anchored at -1. -/
theorem getIndels_unmapped_still_walks :
    readUnmapped.Pos < 0 ∧
    (getIndelsRecord readUnmapped).cErr = ["unmapped read"] ∧
    (getIndelsRecord readUnmapped).walk =
      some { qstart := 2, rstart := -1, sent := [IndelEvent.ins ⟨"u1", -1, "AC"⟩] } := by
  decide

/-- C3, amended: for a record whose `Pos` is negative `getIndels` sends the
unmapped-read error, once; it does not skip the record.  A walk that completes has
processed every operation from reference offset `Pos`: it ends at `Pos` plus the
reference-consuming lengths and has sent one insertion event per INSERT and one
deletion event per DELETE operation, hence no event exactly when the record has
neither; a record without operations completes with no event. -/
theorem getIndels_unmapped_signals (samLine : Record) (hunmapped : samLine.Pos < 0) :
    (getIndelsRecord samLine).cErr = ["unmapped read"] ∧
    (∀ fin, (getIndelsRecord samLine).walk = some fin →
      fin.rstart = samLine.Pos + refLen samLine.Cigar ∧
      (insertionsOf fin.sent).length =
        (samLine.Cigar.filter fun op => op.opType = CigarOpType.CigarInsertion).length ∧
      (deletionsOf fin.sent).length =
        (samLine.Cigar.filter fun op => op.opType = CigarOpType.CigarDeletion).length ∧
      (fin.sent = [] ↔ ∀ op ∈ samLine.Cigar,
        op.opType ≠ CigarOpType.CigarInsertion ∧ op.opType ≠ CigarOpType.CigarDeletion)) ∧
    (samLine.Cigar = [] →
      (getIndelsRecord samLine).walk =
        some { qstart := 0, rstart := samLine.Pos, sent := [] }) := by
  refine ⟨by simp [getIndelsRecord, hunmapped], ?_, ?_⟩
  · intro fin hwalk
    obtain ⟨tail, ht, hi, hd⟩ := walkOps_counts samLine.Cigar _ fin hwalk
    simp only [List.nil_append] at ht
    subst ht
    refine ⟨walkOps_rstart samLine.Cigar _ fin hwalk, hi, hd, ?_⟩
    have hlen := length_eq_insertions_add_deletions fin.sent
    rw [hi, hd] at hlen
    constructor
    · intro h0 op hop
      rw [h0] at hlen
      simp only [List.length_nil] at hlen
      have h1 : (samLine.Cigar.filter
          fun op => op.opType = CigarOpType.CigarInsertion) = [] :=
        List.length_eq_zero.mp (by omega)
      have h2 : (samLine.Cigar.filter
          fun op => op.opType = CigarOpType.CigarDeletion) = [] :=
        List.length_eq_zero.mp (by omega)
      rw [List.filter_eq_nil_iff] at h1 h2
      exact ⟨by simpa using h1 op hop, by simpa using h2 op hop⟩
    · intro h
      have h1 : (samLine.Cigar.filter
          fun op => op.opType = CigarOpType.CigarInsertion) = [] :=
        List.filter_eq_nil_iff.mpr fun op hop => by simpa using (h op hop).1
      have h2 : (samLine.Cigar.filter
          fun op => op.opType = CigarOpType.CigarDeletion) = [] :=
        List.filter_eq_nil_iff.mpr fun op hop => by simpa using (h op hop).2
      rw [h1, h2] at hlen
      exact List.length_eq_zero.mp (by simpa using hlen)
  · intro h
    simp [getIndelsRecord, h, walkOps]

/-- C3 amended, on the record `u1` (`Pos = -1`, `2I`): the error is sent and the
walk ends at offset -1 with one insertion event. -/
theorem getIndels_unmapped_signals_witness :
    readUnmapped.Pos < 0 ∧
    (getIndelsRecord readUnmapped).cErr = ["unmapped read"] ∧
    (∀ fin, (getIndelsRecord readUnmapped).walk = some fin →
      fin.rstart = readUnmapped.Pos + refLen readUnmapped.Cigar ∧
      (insertionsOf fin.sent).length =
        (readUnmapped.Cigar.filter fun op => op.opType = CigarOpType.CigarInsertion).length ∧
      (deletionsOf fin.sent).length =
        (readUnmapped.Cigar.filter fun op => op.opType = CigarOpType.CigarDeletion).length ∧
      (fin.sent = [] ↔ ∀ op ∈ readUnmapped.Cigar,
        op.opType ≠ CigarOpType.CigarInsertion ∧ op.opType ≠ CigarOpType.CigarDeletion)) ∧
    (readUnmapped.Cigar = [] →
      (getIndelsRecord readUnmapped).walk =
        some { qstart := 0, rstart := readUnmapped.Pos, sent := [] }) :=
  ⟨by decide, getIndels_unmapped_signals readUnmapped (by decide)⟩

/-- C4, as the claim states it, fails: the single mapped read `id1` with operations
`3M2I1P2I3M` sends the insertion `AC` at offset 13 twice; the bucket holds `id1` twice
and the report has a data line that names one read only. -/
theorem single_read_fills_a_line :
    (∀ r ∈ [readTwice], 0 ≤ r.Pos) ∧ ([readTwice].map Record.Name).Nodup ∧
    (getIndels [readTwice]).sent =
      some [IndelEvent.ins ⟨"id1", 13, "AC"⟩, IndelEvent.ins ⟨"id1", 13, "AC"⟩] ∧
    bucketAt (populateInsMap (recordInsertions readTwice)) 13 "AC" = some ["id1", "id1"] ∧
    insDataLines (populateInsMap (recordInsertions readTwice)) = ["14\tAC\tid1|id1\n"] := by
  decide

/-- C4, amended: take mapped records with pairwise distinct names whose walks
complete, none of which sends two insertion events with the same (anchor, bases) or
two deletion events with the same (start, length), and aggregate their events in any
interleaving.  Then no name occurs twice in a bucket of either table, and every data
line of either report is the line of a bucket with at least two supporters, all of
them different reads. -/
theorem distinct_reads_per_bucket (rs : List Record)
    (evsI : List insertionOccurrence) (evsD : List deletionOccurrence)
    (hmapped : ∀ r ∈ rs, 0 ≤ r.Pos)
    (hids : (rs.map Record.Name).Nodup)
    (hwalk : ∀ r ∈ rs, (getIndelsRecord r).walk ≠ none)
    (hkeysI : ∀ r ∈ rs, ((recordInsertions r).map fun e => (e.start, e.seq)).Nodup)
    (hkeysD : ∀ r ∈ rs, ((recordDeletions r).map fun e => (e.start, e.length)).Nodup)
    (hI : evsI.Perm (rs.flatMap recordInsertions))
    (hD : evsD.Perm (rs.flatMap recordDeletions)) :
    (∀ k v ids, bucketAt (populateInsMap evsI) k v = some ids → ids.Nodup) ∧
    (∀ k v ids, bucketAt (populateDelMap evsD) k v = some ids → ids.Nodup) ∧
    (∀ line ∈ insDataLines (populateInsMap evsI), ∃ b ∈ reported (populateInsMap evsI),
      line = insLine b ∧ b.2.2.Nodup ∧ 2 ≤ b.2.2.length) ∧
    (∀ line ∈ delDataLines (populateDelMap evsD), ∃ b ∈ reported (populateDelMap evsD),
      line = delLine b ∧ b.2.2.Nodup ∧ 2 ≤ b.2.2.length) := by
  have _ := hmapped
  have _ := hwalk
  have hins : ∀ k v ids, bucketAt (populateInsMap evsI) k v = some ids → ids.Nodup := by
    intro k v ids h
    rw [bucketAt_populateInsMap] at h
    split at h
    · simp at h
    · simp only [Option.some.injEq] at h
      rw [← h]
      have := support_nodup rs recordInsertions (fun e => (e.start, e.seq))
        (fun e => e.query) (fun r _ => recordInsertions_query r) hkeysI hids evsI hI (k, v)
      simpa using this
  have hdel : ∀ k v ids, bucketAt (populateDelMap evsD) k v = some ids → ids.Nodup := by
    intro k v ids h
    rw [bucketAt_populateDelMap] at h
    split at h
    · simp at h
    · simp only [Option.some.injEq] at h
      rw [← h]
      have := support_nodup rs recordDeletions (fun e => (e.start, e.length))
        (fun e => e.query) (fun r _ => recordDeletions_query r) hkeysD hids evsD hD (k, v)
      simpa using this
  refine ⟨hins, hdel, ?_, ?_⟩
  · intro line hline
    obtain ⟨b, hb, rfl⟩ := List.mem_map.mp hline
    obtain ⟨hb1, hb2⟩ := bucketAt_of_mem_reported hb
    exact ⟨b, hb, rfl, hins _ _ _ hb1, hb2⟩
  · intro line hline
    obtain ⟨b, hb, rfl⟩ := List.mem_map.mp hline
    obtain ⟨hb1, hb2⟩ := bucketAt_of_mem_reported hb
    exact ⟨b, hb, rfl, hdel _ _ _ hb1, hb2⟩

/-- C4 amended, on the reads `id1` and `id2` with `5M2I3M`, `id2` arriving first. -/
theorem distinct_reads_per_bucket_witness :
    ((∀ r ∈ [readIns1, readIns2], 0 ≤ r.Pos) ∧
      ([readIns1, readIns2].map Record.Name).Nodup ∧
      (∀ r ∈ [readIns1, readIns2], (getIndelsRecord r).walk ≠ none) ∧
      (∀ r ∈ [readIns1, readIns2],
        ((recordInsertions r).map fun e => (e.start, e.seq)).Nodup) ∧
      (∀ r ∈ [readIns1, readIns2],
        ((recordDeletions r).map fun e => (e.start, e.length)).Nodup) ∧
      [(⟨"id2", 15, "AC"⟩ : insertionOccurrence), ⟨"id1", 15, "AC"⟩].Perm
        ([readIns1, readIns2].flatMap recordInsertions) ∧
      ([] : List deletionOccurrence).Perm ([readIns1, readIns2].flatMap recordDeletions)) ∧
    ((∀ k v ids, bucketAt (populateInsMap [⟨"id2", 15, "AC"⟩, ⟨"id1", 15, "AC"⟩]) k v
        = some ids → ids.Nodup) ∧
      (∀ k v ids, bucketAt (populateDelMap []) k v = some ids → ids.Nodup) ∧
      (∀ line ∈ insDataLines (populateInsMap [⟨"id2", 15, "AC"⟩, ⟨"id1", 15, "AC"⟩]),
        ∃ b ∈ reported (populateInsMap [⟨"id2", 15, "AC"⟩, ⟨"id1", 15, "AC"⟩]),
          line = insLine b ∧ b.2.2.Nodup ∧ 2 ≤ b.2.2.length) ∧
      (∀ line ∈ delDataLines (populateDelMap []), ∃ b ∈ reported (populateDelMap []),
        line = delLine b ∧ b.2.2.Nodup ∧ 2 ≤ b.2.2.length)) :=
  ⟨⟨by decide, by decide, by decide, by decide, by decide, by decide, by decide⟩,
    distinct_reads_per_bucket [readIns1, readIns2]
      [⟨"id2", 15, "AC"⟩, ⟨"id1", 15, "AC"⟩] []
      (by decide) (by decide) (by decide) (by decide) (by decide) (by decide) (by decide)⟩

/-- C5: for every frequency table (a map of maps: distinct coordinates, distinct
signatures under a coordinate) the data lines of `writeInsMap` and of `writeDelMap` are,
up to order, the lines of the buckets with at least two supporters: a bucket is
reported if and only if it is a bucket of the table with at least two supporters (so
never with exactly one), and no bucket is reported twice. -/
theorem report_iff_two_supporters (insmap : InsMap) (delmap : DelMap)
    (hins : TableWF insmap) (hdel : TableWF delmap) :
    ((insDataLines insmap).Perm
        (((buckets insmap).filter fun b => decide (2 ≤ b.2.2.length)).map insLine) ∧
      (∀ b, b ∈ reported insmap ↔ b ∈ buckets insmap ∧ 2 ≤ b.2.2.length) ∧
      (reported insmap).Nodup) ∧
    ((delDataLines delmap).Perm
        (((buckets delmap).filter fun b => decide (2 ≤ b.2.2.length)).map delLine) ∧
      (∀ b, b ∈ reported delmap ↔ b ∈ buckets delmap ∧ 2 ≤ b.2.2.length) ∧
      (reported delmap).Nodup) :=
  ⟨⟨(reported_perm hins).map insLine, mem_reported_iff hins, reported_nodup hins⟩,
    ⟨(reported_perm hdel).map delLine, mem_reported_iff hdel, reported_nodup hdel⟩⟩

/-- C5, on two tables of three buckets each. -/
theorem report_iff_two_supporters_witness :
    (TableWF tableIns ∧ TableWF tableDel ∧
      insDataLines tableIns = ["4\tT\ta|b|c\n", "16\tAC\tid1|id2\n"] ∧
      delDataLines tableDel = ["5\t3\tid1|id2\n"]) ∧
    (((insDataLines tableIns).Perm
        (((buckets tableIns).filter fun b => decide (2 ≤ b.2.2.length)).map insLine) ∧
      (∀ b, b ∈ reported tableIns ↔ b ∈ buckets tableIns ∧ 2 ≤ b.2.2.length) ∧
      (reported tableIns).Nodup) ∧
    ((delDataLines tableDel).Perm
        (((buckets tableDel).filter fun b => decide (2 ≤ b.2.2.length)).map delLine) ∧
      (∀ b, b ∈ reported tableDel ↔ b ∈ buckets tableDel ∧ 2 ≤ b.2.2.length) ∧
      (reported tableDel).Nodup)) :=
  ⟨⟨by decide, by decide, by decide, by decide⟩,
    report_iff_two_supporters tableIns tableDel (by decide) (by decide)⟩

/-- C6: when two lists of insertion events (of deletion events) are permutations of
each other, the tables `populateInsMap` (`populateDelMap`) builds from them have a
bucket at the same `(coordinate, signature)` pairs, and at each of them the same
multiset of supporting names. -/
theorem populate_order_independent
    (ins1 ins2 : List insertionOccurrence) (del1 del2 : List deletionOccurrence)
    (hins : ins1.Perm ins2) (hdel : del1.Perm del2) :
    (∀ k v, (bucketAt (populateInsMap ins1) k v).map (fun ids => (ids : Multiset String)) =
      (bucketAt (populateInsMap ins2) k v).map (fun ids => (ids : Multiset String))) ∧
    (∀ k v, (bucketAt (populateDelMap del1) k v).map (fun ids => (ids : Multiset String)) =
      (bucketAt (populateDelMap del2) k v).map (fun ids => (ids : Multiset String))) := by
  constructor
  · intro k v
    have hp := hins.filter fun e => decide (e.start = k ∧ e.seq = v)
    rw [bucketAt_populateInsMap, bucketAt_populateInsMap]
    by_cases h1 : (ins1.filter fun e => decide (e.start = k ∧ e.seq = v)) = []
    · have h2 : (ins2.filter fun e => decide (e.start = k ∧ e.seq = v)) = [] :=
        List.Perm.eq_nil (h1 ▸ hp.symm)
      rw [if_pos h1, if_pos h2]
    · have h2 : ¬ (ins2.filter fun e => decide (e.start = k ∧ e.seq = v)) = [] :=
        fun h => h1 (List.Perm.eq_nil (h ▸ hp))
      rw [if_neg h1, if_neg h2]
      exact congrArg some (Quotient.sound (hp.map _))
  · intro k v
    have hp := hdel.filter fun e => decide (e.start = k ∧ e.length = v)
    rw [bucketAt_populateDelMap, bucketAt_populateDelMap]
    by_cases h1 : (del1.filter fun e => decide (e.start = k ∧ e.length = v)) = []
    · have h2 : (del2.filter fun e => decide (e.start = k ∧ e.length = v)) = [] :=
        List.Perm.eq_nil (h1 ▸ hp.symm)
      rw [if_pos h1, if_pos h2]
    · have h2 : ¬ (del2.filter fun e => decide (e.start = k ∧ e.length = v)) = [] :=
        fun h => h1 (List.Perm.eq_nil (h ▸ hp))
      rw [if_neg h1, if_neg h2]
      exact congrArg some (Quotient.sound (hp.map _))

/-- C6, on three insertion events and two deletion events taken in two orders. -/
theorem populate_order_independent_witness :
    ([(⟨"a", 5, "AC"⟩ : insertionOccurrence), ⟨"b", 5, "AC"⟩, ⟨"c", 7, "G"⟩].Perm
        [⟨"c", 7, "G"⟩, ⟨"b", 5, "AC"⟩, ⟨"a", 5, "AC"⟩] ∧
      [(⟨"a", 4, 3⟩ : deletionOccurrence), ⟨"b", 4, 3⟩].Perm [⟨"b", 4, 3⟩, ⟨"a", 4, 3⟩] ∧
      bucketAt (populateInsMap [⟨"a", 5, "AC"⟩, ⟨"b", 5, "AC"⟩, ⟨"c", 7, "G"⟩]) 5 "AC"
        = some ["a", "b"] ∧
      bucketAt (populateInsMap [⟨"c", 7, "G"⟩, ⟨"b", 5, "AC"⟩, ⟨"a", 5, "AC"⟩]) 5 "AC"
        = some ["b", "a"]) ∧
    ((∀ k v,
      (bucketAt (populateInsMap [⟨"a", 5, "AC"⟩, ⟨"b", 5, "AC"⟩, ⟨"c", 7, "G"⟩]) k v).map
          (fun ids => (ids : Multiset String)) =
        (bucketAt (populateInsMap [⟨"c", 7, "G"⟩, ⟨"b", 5, "AC"⟩, ⟨"a", 5, "AC"⟩]) k v).map
          (fun ids => (ids : Multiset String))) ∧
    (∀ k v,
      (bucketAt (populateDelMap [⟨"a", 4, 3⟩, ⟨"b", 4, 3⟩]) k v).map
          (fun ids => (ids : Multiset String)) =
        (bucketAt (populateDelMap [⟨"b", 4, 3⟩, ⟨"a", 4, 3⟩]) k v).map
          (fun ids => (ids : Multiset String)))) :=
  ⟨⟨by decide, by decide, by decide, by decide⟩,
    populate_order_independent _ _ _ _ (by decide) (by decide)⟩

/-- C7, as the claim states it, fails: for the reads `id1` and `id2` at reference
offset 10 with `5M2I3M` and bases `AC` at query offsets 5 and 6, the only data line
is `16 AC id1|id2` (anchor 10 + 5, written plus 1), not `11 AC id1|id2`. -/
theorem scenario_5M2I3M_reports_16 :
    recordInsertions readIns1 = [⟨"id1", 15, "AC"⟩] ∧
    recordInsertions readIns2 = [⟨"id2", 15, "AC"⟩] ∧
    insDataLines (populateInsMap (recordInsertions readIns1 ++ recordInsertions readIns2)) =
      ["16\tAC\tid1|id2\n"] ∧
    "11\tAC\tid1|id2\n" ∉
      insDataLines (populateInsMap (recordInsertions readIns1 ++ recordInsertions readIns2)) := by
  decide

/-- C7, amended: for two records named `id1` and `id2`, both at reference offset 10
with operations `5M2I3M` and a 10-base query whose bases at offsets 5 and 6 are `AC`,
each walk sends the one insertion event (anchor 15, bases `AC`); aggregating the events
of `id1` then `id2` and writing the insertion report gives exactly one data line,
`16 AC id1|id2` (tab separated, names in arrival order); the events of one read alone
give no data line. -/
theorem scenario_5M2I3M (id1 id2 : String) (seq : List Char)
    (hlen : seq.length = 10) (h5 : seq[5]? = some 'A') (h6 : seq[6]? = some 'C') :
    recordInsertions (scenarioIns id1 seq) = [⟨id1, 15, "AC"⟩] ∧
    recordInsertions (scenarioIns id2 seq) = [⟨id2, 15, "AC"⟩] ∧
    insDataLines (populateInsMap
        (recordInsertions (scenarioIns id1 seq) ++ recordInsertions (scenarioIns id2 seq))) =
      ["16\tAC\t" ++ (id1 ++ "|" ++ id2) ++ "\n"] ∧
    insDataLines (populateInsMap (recordInsertions (scenarioIns id1 seq))) = [] := by
  obtain ⟨b0, b1, b2, b3, b4, b5, b6, b7, b8, b9, rfl⟩ := length_eq_ten hlen
  simp only [List.getElem?_cons_succ, List.getElem?_cons_zero, Option.some.injEq] at h5 h6
  subst h5 h6
  have h : ∀ n, recordInsertions (scenarioIns n [b0, b1, b2, b3, b4, 'A', 'C', b7, b8, b9])
      = [⟨n, 15, "AC"⟩] := fun _ => rfl
  refine ⟨h id1, h id2, ?_, ?_⟩
  · rw [h id1, h id2]
    rfl
  · rw [h id1]
    rfl

/-- C7 amended, on the names `id1`, `id2` and the bases `GGGGGACTTT`. -/
theorem scenario_5M2I3M_witness :
    ("GGGGGACTTT".toList.length = 10 ∧ "GGGGGACTTT".toList[5]? = some 'A' ∧
      "GGGGGACTTT".toList[6]? = some 'C') ∧
    (recordInsertions (scenarioIns "id1" "GGGGGACTTT".toList) = [⟨"id1", 15, "AC"⟩] ∧
      recordInsertions (scenarioIns "id2" "GGGGGACTTT".toList) = [⟨"id2", 15, "AC"⟩] ∧
      insDataLines (populateInsMap
          (recordInsertions (scenarioIns "id1" "GGGGGACTTT".toList) ++
            recordInsertions (scenarioIns "id2" "GGGGGACTTT".toList))) =
        ["16\tAC\t" ++ ("id1" ++ "|" ++ "id2") ++ "\n"] ∧
      insDataLines (populateInsMap (recordInsertions (scenarioIns "id1" "GGGGGACTTT".toList)))
        = []) :=
  ⟨⟨by decide, by decide, by decide⟩,
    scenario_5M2I3M "id1" "id2" "GGGGGACTTT".toList (by decide) (by decide) (by decide)⟩

/-- C8: a record at reference offset 0 with operations `4M3D4M` and an 8-base query
makes `getIndels` send exactly one event, the deletion with start 4 and length 3, and
no insertion; for two such records `id1` and `id2`, aggregated in that order, the
deletion report has exactly one data line, `5 3 id1|id2` (tab separated). -/
theorem scenario_4M3D4M (id1 id2 : String) (seq : List Char) (hlen : seq.length = 8) :
    (getIndelsRecord (scenarioDel id1 seq)).walk =
      some { qstart := 8, rstart := 11, sent := [IndelEvent.del ⟨id1, 4, 3⟩] } ∧
    recordDeletions (scenarioDel id1 seq) = [⟨id1, 4, 3⟩] ∧
    recordInsertions (scenarioDel id1 seq) = [] ∧
    delDataLines (populateDelMap
        (recordDeletions (scenarioDel id1 seq) ++ recordDeletions (scenarioDel id2 seq))) =
      ["5\t3\t" ++ (id1 ++ "|" ++ id2) ++ "\n"] := by
  obtain ⟨b0, b1, b2, b3, b4, b5, b6, b7, rfl⟩ := length_eq_eight hlen
  have h : ∀ n, recordDeletions (scenarioDel n [b0, b1, b2, b3, b4, b5, b6, b7])
      = [⟨n, 4, 3⟩] := fun _ => rfl
  refine ⟨rfl, h id1, rfl, ?_⟩
  rw [h id1, h id2]
  rfl

/-- C8, on the names `id1`, `id2` and the bases `ACGTACGT`. -/
theorem scenario_4M3D4M_witness :
    "ACGTACGT".toList.length = 8 ∧
    ((getIndelsRecord (scenarioDel "id1" "ACGTACGT".toList)).walk =
        some { qstart := 8, rstart := 11, sent := [IndelEvent.del ⟨"id1", 4, 3⟩] } ∧
      recordDeletions (scenarioDel "id1" "ACGTACGT".toList) = [⟨"id1", 4, 3⟩] ∧
      recordInsertions (scenarioDel "id1" "ACGTACGT".toList) = [] ∧
      delDataLines (populateDelMap
          (recordDeletions (scenarioDel "id1" "ACGTACGT".toList) ++
            recordDeletions (scenarioDel "id2" "ACGTACGT".toList))) =
        ["5\t3\t" ++ ("id1" ++ "|" ++ "id2") ++ "\n"]) :=
  ⟨by decide, scenario_4M3D4M "id1" "id2" "ACGTACGT".toList (by decide)⟩

/-! ## Lemmas on the operation interpreter -/

/-- The interpreter, kind by kind. -/
theorem interpret_eq (t : CigarOpType) (q r n : Int) (seq : List Char) :
    interpret t q r n seq =
      match t with
      | .CigarMatch | .CigarEqual | .CigarMismatch =>
        (sliceBytes seq q (q + n)).map fun s => (q + n, r + n, s)
      | .CigarInsertion | .CigarSoftClipped => some (q + n, r, [])
      | .CigarDeletion => (makeFilled '-' n).map fun g => (q, r + n, g)
      | .CigarSkipped => (makeFilled '*' n).map fun g => (q, r + n, g)
      | .CigarHardClipped | .CigarPadded => some (q, r, []) := by
  cases t <;>
    simp [interpret, CigarOpType.opString, getCigarOperationMapNoInsertions, mapGet]

theorem sliceBytes_isSome (seq : List Char) (lo hi : Int) :
    (sliceBytes seq lo hi).isSome ↔ 0 ≤ lo ∧ lo ≤ hi ∧ hi ≤ (seq.length : Int) := by
  unfold sliceBytes
  split <;> simp_all

theorem sliceBytes_eq {seq b : List Char} {lo hi : Int} (h : sliceBytes seq lo hi = some b) :
    b = (seq.drop lo.toNat).take (hi.toNat - lo.toNat) := by
  unfold sliceBytes at h
  split at h
  · simpa using h.symm
  · simp at h

/-- One iteration of the walk succeeds when its length is non-negative and, for a
query-consuming operation, the bases it consumes lie inside the query. -/
theorem walkOp_isSome (QNAME : String) (SEQ : List Char) (st : WalkState) (op : CigarOp)
    (hlen : 0 ≤ op.len) (hq : 0 ≤ st.qstart)
    (hfit : op.opType.consumesQuery = true → st.qstart + op.len ≤ (SEQ.length : Int)) :
    ∃ st1, walkOp QNAME SEQ st op = some st1 := by
  obtain ⟨t, n⟩ := op
  simp only at hlen hfit
  have hs : t.consumesQuery = true → ∃ b, sliceBytes SEQ st.qstart (st.qstart + n) = some b := by
    intro ht
    have := (sliceBytes_isSome SEQ st.qstart (st.qstart + n)).mpr ⟨hq, by omega, hfit ht⟩
    exact Option.isSome_iff_exists.mp this
  cases t
  all_goals first
    | (simp [walkOp, CigarOpType.opString, getCigarOperationMapNoInsertions, mapGet,
        makeFilled, hlen]
       done)
    | (obtain ⟨b, hb⟩ := hs (by decide)
       simp [walkOp, CigarOpType.opString, getCigarOperationMapNoInsertions, mapGet, hb])

theorem queryLen_cons (op : CigarOp) (ops : List CigarOp) :
    queryLen (op :: ops) = (if op.opType.consumesQuery then op.len else 0) + queryLen ops := by
  unfold queryLen
  by_cases hc : op.opType.consumesQuery = true
  · simp [List.filter_cons, hc]
  · simp [List.filter_cons, hc]

theorem queryLen_nonneg (ops : List CigarOp) (hlen : ∀ op ∈ ops, 0 ≤ op.len) :
    0 ≤ queryLen ops := by
  unfold queryLen
  apply List.sum_nonneg
  intro x hx
  obtain ⟨o, ho, rfl⟩ := List.mem_map.mp hx
  exact hlen o (List.mem_filter.mp ho).1

/-- A walk whose query-consuming lengths fit in the bases completes, at the query
offset it started at plus those lengths. -/
theorem walkOps_complete (QNAME : String) (SEQ : List Char) :
    ∀ (ops : List CigarOp) (st : WalkState), (∀ op ∈ ops, 0 ≤ op.len) → 0 ≤ st.qstart →
      st.qstart + queryLen ops ≤ (SEQ.length : Int) →
      ∃ fin, walkOps QNAME SEQ st ops = some fin ∧ fin.qstart = st.qstart + queryLen ops
  | [], st, _, _, _ => ⟨st, rfl, by simp [queryLen]⟩
  | op :: ops, st, hlen, hq, hfit => by
    have hop : 0 ≤ op.len := hlen op (List.mem_cons_self _ _)
    have hrest : ∀ o ∈ ops, 0 ≤ o.len := fun o ho => hlen o (List.mem_cons_of_mem _ ho)
    have hnn := queryLen_nonneg ops hrest
    rw [queryLen_cons] at hfit ⊢
    obtain ⟨st1, h1⟩ := walkOp_isSome QNAME SEQ st op hop hq
      (by intro hc; rw [if_pos hc] at hfit; omega)
    obtain ⟨-, hq1, -, -⟩ := walkOp_some h1
    have ha : 0 ≤ (if op.opType.consumesQuery = true then op.len else 0) := by
      split <;> omega
    generalize (if op.opType.consumesQuery = true then op.len else 0) = a at hfit hq1 ha ⊢
    obtain ⟨fin, hfin, hfq⟩ := walkOps_complete QNAME SEQ ops st1 hrest (by omega) (by omega)
    exact ⟨fin, by simp [walkOps, h1, hfin], by omega⟩

/-! ## The operation interpreter: claims -/

/-- C18: whenever the Operation Interpreter returns, its consumed output is the slice
`seq[query_offset : query_offset+length]` (the `length` bases from `query_offset` on) for
ALIGN_MATCH, SEQ_MATCH and SEQ_MISMATCH, empty for INSERT, SOFT_CLIP, HARD_CLIP and PAD,
`length` copies of `-` for DELETE and `length` copies of `*` for REF_SKIP, two different
fillers. -/
theorem interpreter_consumed (t : CigarOpType) (query_offset reference_offset length : Int)
    (seq : List Char) (res : Int × Int × List Char)
    (hret : interpret t query_offset reference_offset length seq = some res) :
    (t ∈ [CigarOpType.CigarMatch, CigarOpType.CigarEqual, CigarOpType.CigarMismatch] →
      sliceBytes seq query_offset (query_offset + length) = some res.2.2 ∧
      res.2.2 = (seq.drop query_offset.toNat).take length.toNat ∧
      (res.2.2.length : Int) = length) ∧
    (t ∈ [CigarOpType.CigarInsertion, CigarOpType.CigarSoftClipped,
        CigarOpType.CigarHardClipped, CigarOpType.CigarPadded] → res.2.2 = []) ∧
    (t = CigarOpType.CigarDeletion →
      res.2.2 = List.replicate length.toNat '-' ∧ (res.2.2.length : Int) = length) ∧
    (t = CigarOpType.CigarSkipped →
      res.2.2 = List.replicate length.toNat '*' ∧ (res.2.2.length : Int) = length) ∧
    '-' ≠ '*' := by
  rw [interpret_eq] at hret
  have hslice : ∀ b, sliceBytes seq query_offset (query_offset + length) = some b →
      sliceBytes seq query_offset (query_offset + length) = some b ∧
      b = (seq.drop query_offset.toNat).take length.toNat ∧ (b.length : Int) = length := by
    intro b hb
    have h1 := sliceBytes_length hb
    have h2 := sliceBytes_eq hb
    have h3 := (sliceBytes_isSome seq query_offset (query_offset + length)).mp
      (by rw [hb]; rfl)
    refine ⟨hb, ?_, by omega⟩
    rw [h2]
    congr 1
    omega
  have hfill : ∀ c g, makeFilled c length = some g →
      g = List.replicate length.toNat c ∧ (g.length : Int) = length := by
    intro c g hg
    unfold makeFilled at hg
    split at hg
    · simp only [Option.some.injEq] at hg
      subst hg
      exact ⟨rfl, by simp; omega⟩
    · simp at hg
  cases t <;> simp only [Option.map_eq_some', Option.some.injEq] at hret
  all_goals
    obtain ⟨b, hb, rfl⟩ := hret
    first
      | (simp
         done)
      | simpa using hslice b hb
      | simpa using hfill _ b hb

/-- C18, on `ALIGN_MATCH` of length 2 at query offset 1 and on `REF_SKIP` of length 2. -/
theorem interpreter_consumed_witness :
    (interpret CigarOpType.CigarMatch 1 10 2 "ACGT".toList = some (3, 12, ['C', 'G']) ∧
      interpret CigarOpType.CigarSkipped 1 10 2 "ACGT".toList = some (1, 12, ['*', '*'])) ∧
    ((CigarOpType.CigarMatch ∈
        [CigarOpType.CigarMatch, CigarOpType.CigarEqual, CigarOpType.CigarMismatch] →
      sliceBytes "ACGT".toList 1 (1 + 2) = some ((3, 12, ['C', 'G']) : Int × Int × List Char).2.2 ∧
      ((3, 12, ['C', 'G']) : Int × Int × List Char).2.2 =
        ("ACGT".toList.drop (1 : Int).toNat).take (2 : Int).toNat ∧
      ((((3, 12, ['C', 'G']) : Int × Int × List Char).2.2.length : Nat) : Int) = 2) ∧
    (CigarOpType.CigarMatch ∈
        [CigarOpType.CigarInsertion, CigarOpType.CigarSoftClipped,
          CigarOpType.CigarHardClipped, CigarOpType.CigarPadded] →
      ((3, 12, ['C', 'G']) : Int × Int × List Char).2.2 = []) ∧
    (CigarOpType.CigarMatch = CigarOpType.CigarDeletion →
      ((3, 12, ['C', 'G']) : Int × Int × List Char).2.2 = List.replicate (2 : Int).toNat '-' ∧
      ((((3, 12, ['C', 'G']) : Int × Int × List Char).2.2.length : Nat) : Int) = 2) ∧
    (CigarOpType.CigarMatch = CigarOpType.CigarSkipped →
      ((3, 12, ['C', 'G']) : Int × Int × List Char).2.2 = List.replicate (2 : Int).toNat '*' ∧
      ((((3, 12, ['C', 'G']) : Int × Int × List Char).2.2.length : Nat) : Int) = 2) ∧
    '-' ≠ '*') :=
  ⟨⟨by decide, by decide⟩,
    interpreter_consumed CigarOpType.CigarMatch 1 10 2 "ACGT".toList (3, 12, ['C', 'G'])
      (by decide)⟩

/-! ## The walker: safety -/

/-- C19: for a mapped record with non-negative operation lengths in which the lengths
of the query-consuming operations (M, =, X, I, S) add up to at most the number of
expanded bases, the walk of `getIndels` completes, so neither the slice of the inserted
bases nor the slice of a match operation is out of range, and the query offset after
the last operation is that sum. -/
theorem getIndels_walk_safe (samLine : Record)
    (hmapped : 0 ≤ samLine.Pos)
    (hlen : ∀ op ∈ samLine.Cigar, 0 ≤ op.len)
    (hfit : queryLen samLine.Cigar ≤ (samLine.Seq.length : Int)) :
    ∃ fin, (getIndelsRecord samLine).walk = some fin ∧ fin.qstart = queryLen samLine.Cigar := by
  have _ := hmapped
  obtain ⟨fin, hfin, hq⟩ := walkOps_complete samLine.Name samLine.Seq samLine.Cigar
    { qstart := 0, rstart := samLine.Pos, sent := [] } hlen (le_refl _) (by simpa using hfit)
  exact ⟨fin, hfin, by simpa using hq⟩

/-- C19, on the read `r7` with `2M1I2M2D1N2M` and seven bases: the walk ends at query
offset 7. -/
theorem getIndels_walk_safe_witness :
    (0 ≤ readMixed.Pos ∧ (∀ op ∈ readMixed.Cigar, 0 ≤ op.len) ∧
      queryLen readMixed.Cigar = 7 ∧ readMixed.Seq.length = 7) ∧
    ∃ fin, (getIndelsRecord readMixed).walk = some fin ∧
      fin.qstart = queryLen readMixed.Cigar :=
  ⟨⟨by decide, by decide, by decide, by decide⟩,
    getIndels_walk_safe readMixed (by decide) (by decide) (by decide)⟩

/-! ## Lemmas on well-formed tables -/

theorem mapSet_keys {κ ν : Type} [DecidableEq κ] (m : List (κ × ν)) (k : κ) (v : ν) :
    (mapSet m k v).map Prod.fst =
      if k ∈ m.map Prod.fst then m.map Prod.fst else m.map Prod.fst ++ [k] := by
  induction m with
  | nil => simp [mapSet]
  | cons p m ih =>
    obtain ⟨k0, v0⟩ := p
    by_cases h0 : k0 = k
    · subst h0
      simp [mapSet]
    · have h1 : ¬ k = k0 := fun h => h0 h.symm
      simp only [mapSet, h0, if_false, List.map_cons, ih, List.mem_cons, h1, false_or]
      split <;> simp

theorem mapSet_keys_nodup {κ ν : Type} [DecidableEq κ] (m : List (κ × ν)) (k : κ) (v : ν)
    (h : (m.map Prod.fst).Nodup) : ((mapSet m k v).map Prod.fst).Nodup := by
  rw [mapSet_keys]
  split
  · exact h
  · rename_i hk
    exact List.Nodup.append h (by simp) (by simpa using hk)

theorem mem_mapSet {κ ν : Type} [DecidableEq κ] {m : List (κ × ν)} {k : κ} {v : ν}
    {p : κ × ν} (h : p ∈ mapSet m k v) : p = (k, v) ∨ p ∈ m := by
  induction m with
  | nil => simpa [mapSet] using h
  | cons p0 m ih =>
    obtain ⟨k0, v0⟩ := p0
    by_cases h0 : k0 = k
    · simp only [mapSet, h0, if_true, List.mem_cons] at h
      rcases h with h | h
      · exact Or.inl h
      · exact Or.inr (List.mem_cons_of_mem _ h)
    · simp only [mapSet, h0, if_false, List.mem_cons] at h
      rcases h with h | h
      · exact Or.inr (by simp [h])
      · rcases ih h with h1 | h1
        · exact Or.inl h1
        · exact Or.inr (List.mem_cons_of_mem _ h1)

theorem mem_of_mapGet {κ ν : Type} [DecidableEq κ] {m : List (κ × ν)} {k : κ} {v : ν}
    (h : mapGet m k = some v) : (k, v) ∈ m := by
  induction m with
  | nil => simp [mapGet] at h
  | cons p0 m ih =>
    obtain ⟨k0, v0⟩ := p0
    by_cases h0 : k0 = k
    · simp only [mapGet, h0, if_true, Option.some.injEq] at h
      simp [h0, h]
    · simp only [mapGet, h0, if_false] at h
      exact List.mem_cons_of_mem _ (ih h)

/-- Adding an event keeps the table a map of maps. -/
theorem tableWF_tableAdd {σ : Type} [DecidableEq σ] (m : List (Int × List (σ × List String)))
    (k : Int) (v : σ) (q : String) (hwf : TableWF m) : TableWF (tableAdd m k v q) := by
  obtain ⟨h1, h2⟩ := hwf
  have key : ∀ inner1 : List (σ × List String), (inner1.map Prod.fst).Nodup →
      TableWF (mapSet m k inner1) := by
    intro inner1 hn
    refine ⟨mapSet_keys_nodup m k inner1 h1, ?_⟩
    intro p hp
    rcases mem_mapSet hp with rfl | hp
    · exact hn
    · exact h2 p hp
  unfold tableAdd
  cases hk : mapGet m k with
  | none => exact key _ (mapSet_keys_nodup [] v [q] (by simp))
  | some inner =>
    have hinner : (inner.map Prod.fst).Nodup := h2 (k, inner) (mem_of_mapGet hk)
    cases hv : mapGet inner v with
    | none =>
      simp only [hv]
      exact key _ (mapSet_keys_nodup inner v [q] hinner)
    | some ids =>
      simp only [hv]
      exact key _ (mapSet_keys_nodup inner v (ids ++ [q]) hinner)

theorem tableWF_foldl_tableAdd {σ : Type} [DecidableEq σ] (ts : List (Int × σ × String)) :
    ∀ (m : List (Int × List (σ × List String))), TableWF m →
      TableWF (ts.foldl (fun acc t => tableAdd acc t.1 t.2.1 t.2.2) m) := by
  induction ts with
  | nil => intro m h; exact h
  | cons t ts ih => intro m h; exact ih _ (tableWF_tableAdd m t.1 t.2.1 t.2.2 h)

theorem tableWF_populateInsMap (cIns : List insertionOccurrence) :
    TableWF (populateInsMap cIns) := by
  rw [populateInsMap_eq]
  exact tableWF_foldl_tableAdd _ [] ⟨by simp, by simp⟩

theorem tableWF_populateDelMap (cDel : List deletionOccurrence) :
    TableWF (populateDelMap cDel) := by
  rw [populateDelMap_eq]
  exact tableWF_foldl_tableAdd _ [] ⟨by simp, by simp⟩

/-- In a well-formed table the lookup at the key of a stored bucket finds that bucket. -/
theorem bucketAt_of_mem_buckets {σ : Type} [DecidableEq σ]
    {m : List (Int × List (σ × List String))} (hwf : TableWF m)
    {b : Int × σ × List String} (hb : b ∈ buckets m) : bucketAt m b.1 b.2.1 = some b.2.2 := by
  unfold buckets at hb
  simp only [List.mem_flatMap, List.mem_map] at hb
  obtain ⟨p, hp, q, hq, rfl⟩ := hb
  have h1 : mapGet m p.1 = some p.2 := mapGet_of_mem hwf.1 hp
  have h2 : mapGet p.2 q.1 = some q.2 := mapGet_of_mem (hwf.2 p hp) hq
  simp [bucketAt, h1, h2]

/-! ## Lemmas on the order and the text of the report -/

theorem mem_sortedKeys {ν : Type} (m : List (Int × ν)) (k : Int) :
    k ∈ sortedKeys m ↔ k ∈ m.map Prod.fst :=
  (List.perm_insertionSort _ _).mem_iff

theorem sortedKeys_nodup {ν : Type} (m : List (Int × ν)) (h : (m.map Prod.fst).Nodup) :
    (sortedKeys m).Nodup :=
  (List.perm_insertionSort _ _).nodup_iff.mpr h

/-- The buckets reported while the outer loop is at coordinate `k`. -/
theorem reported_row_coord {σ : Type} [DecidableEq σ] (m : List (Int × List (σ × List String)))
    (k : Int) :
    ∀ b ∈ ((((mapGet m k).getD []).map Prod.fst).filterMap fun v =>
        if (supporters m k v).length < 2 then none else some (k, v, supporters m k v)),
      b.1 = k := by
  intro b hb
  obtain ⟨v, -, hv⟩ := List.mem_filterMap.mp hb
  split at hv
  · simp at hv
  · simp only [Option.some.injEq] at hv
    rw [← hv]

theorem flatMap_single {α β : Type} (G : α → List β) (a : α) :
    ∀ l : List α, l.Nodup → a ∈ l → (∀ k ∈ l, k ≠ a → G k = []) → l.flatMap G = G a
  | [], _, ha, _ => by simp at ha
  | k :: l, hnd, ha, hG => by
    rw [List.nodup_cons] at hnd
    rw [List.flatMap_cons]
    by_cases hk : k = a
    · subst hk
      have : l.flatMap G = [] := by
        rw [List.flatMap_eq_nil_iff]
        intro x hx
        exact hG x (List.mem_cons_of_mem _ hx) (fun h => hnd.1 (h ▸ hx))
      rw [this, List.append_nil]
    · have ha1 : a ∈ l := by
        rcases List.mem_cons.mp ha with h | h
        · exact absurd h.symm hk
        · exact h
      rw [hG k (List.mem_cons_self _ _) hk, List.nil_append]
      exact flatMap_single G a l hnd.2 ha1 fun x hx => hG x (List.mem_cons_of_mem _ hx)

/-- In a well-formed table the reported buckets of one coordinate are the buckets
of its signature map with at least two supporters, in the order of that map. -/
theorem reported_filter_coord {σ : Type} [DecidableEq σ]
    {m : List (Int × List (σ × List String))} (hwf : TableWF m)
    {p : Int × List (σ × List String)} (hp : p ∈ m) :
    ((reported m).filter fun b => decide (b.1 = p.1)) =
      (p.2.map fun q => (p.1, q.1, q.2)).filter fun b => decide (2 ≤ b.2.2.length) := by
  rw [← reported_row hwf hp]
  unfold reported
  rw [List.filter_flatMap]
  have hmem : p.1 ∈ sortedKeys m :=
    (mem_sortedKeys m p.1).mpr (List.mem_map.mpr ⟨p, hp, rfl⟩)
  rw [flatMap_single _ p.1 (sortedKeys m) (sortedKeys_nodup m hwf.1) hmem]
  · apply List.filter_eq_self.mpr
    intro b hb
    simpa using reported_row_coord m p.1 b hb
  · intro k _ hk
    apply List.filter_eq_nil_iff.mpr
    intro b hb
    have := reported_row_coord m k b hb
    simpa [this] using hk

/-- C11: the table built by `populateInsMap` is a map of maps; it has a bucket at
(coordinate `c`, bases `s`) exactly when some event has anchor `c` and bases `s`, and the
supporters of that bucket are the names of the events with that key, one per event, in
arrival order; every bucket stored in the table is found this way.  The same holds for
`populateDelMap` with the key (start, length). -/
theorem populate_buckets_exact (cIns : List insertionOccurrence)
    (cDel : List deletionOccurrence) :
    (TableWF (populateInsMap cIns) ∧
      (∀ c s, (bucketAt (populateInsMap cIns) c s).isSome ↔
        ∃ e ∈ cIns, e.start = c ∧ e.seq = s) ∧
      (∀ c s ids, bucketAt (populateInsMap cIns) c s = some ids →
        ids = (cIns.filter fun e => e.start = c ∧ e.seq = s).map fun e => e.query) ∧
      (∀ b ∈ buckets (populateInsMap cIns),
        bucketAt (populateInsMap cIns) b.1 b.2.1 = some b.2.2)) ∧
    (TableWF (populateDelMap cDel) ∧
      (∀ c n, (bucketAt (populateDelMap cDel) c n).isSome ↔
        ∃ e ∈ cDel, e.start = c ∧ e.length = n) ∧
      (∀ c n ids, bucketAt (populateDelMap cDel) c n = some ids →
        ids = (cDel.filter fun e => e.start = c ∧ e.length = n).map fun e => e.query) ∧
      (∀ b ∈ buckets (populateDelMap cDel),
        bucketAt (populateDelMap cDel) b.1 b.2.1 = some b.2.2)) := by
  refine ⟨⟨tableWF_populateInsMap cIns, ?_, ?_,
      fun b hb => bucketAt_of_mem_buckets (tableWF_populateInsMap cIns) hb⟩,
    ⟨tableWF_populateDelMap cDel, ?_, ?_,
      fun b hb => bucketAt_of_mem_buckets (tableWF_populateDelMap cDel) hb⟩⟩
  · intro c s
    rw [bucketAt_populateInsMap]
    split
    · rename_i h
      simp only [Option.isSome_none, Bool.false_eq_true, false_iff]
      rintro ⟨e, he, hc, hs⟩
      exact (List.filter_eq_nil_iff.mp h) e he (by simp [hc, hs])
    · rename_i h
      simp only [Option.isSome_some, true_iff]
      obtain ⟨e, he⟩ := List.exists_mem_of_ne_nil _ h
      obtain ⟨he1, he2⟩ := List.mem_filter.mp he
      exact ⟨e, he1, by simpa using he2⟩
  · intro c s ids h
    rw [bucketAt_populateInsMap] at h
    split at h
    · simp at h
    · simpa using h.symm
  · intro c n
    rw [bucketAt_populateDelMap]
    split
    · rename_i h
      simp only [Option.isSome_none, Bool.false_eq_true, false_iff]
      rintro ⟨e, he, hc, hs⟩
      exact (List.filter_eq_nil_iff.mp h) e he (by simp [hc, hs])
    · rename_i h
      simp only [Option.isSome_some, true_iff]
      obtain ⟨e, he⟩ := List.exists_mem_of_ne_nil _ h
      obtain ⟨he1, he2⟩ := List.mem_filter.mp he
      exact ⟨e, he1, by simpa using he2⟩
  · intro c n ids h
    rw [bucketAt_populateDelMap] at h
    split at h
    · simp at h
    · simpa using h.symm

/-- C13, as the claim states it, fails: the writers do not sort the signatures.  In an
insertion table whose coordinate 15 is visited at `G` before `AC` the line of `G` comes
first although `AC` is the smaller string, and in a deletion table visited at
length 3 before length 2 the line of 3 comes first; the table with the same buckets
visited in the other order gives another report text. -/
theorem report_not_sorted_by_signature :
    (TableWF tableInsGFirst ∧ TableWF tableDel3First ∧ TableWF tableInsACFirst) ∧
    insDataLines tableInsGFirst = ["16\tG\ta|b\n", "16\tAC\tc|d\n"] ∧
    "AC" < "G" ∧
    delDataLines tableDel3First = ["5\t3\ta|b\n", "5\t2\tc|d\n"] ∧
    (2 : Int) < 3 ∧
    (buckets tableInsGFirst).Perm (buckets tableInsACFirst) ∧
    writeInsMap tableInsGFirst ≠ writeInsMap tableInsACFirst ∧
    populateInsMap [⟨"a", 15, "G"⟩, ⟨"c", 15, "AC"⟩, ⟨"b", 15, "G"⟩, ⟨"d", 15, "AC"⟩] =
      tableInsGFirst := by
  refine ⟨⟨by decide, by decide, by decide⟩, by decide, ?_, by decide, by decide, by decide,
    by decide, by decide⟩
  apply String.lt_iff_toList_lt.mpr
  decide

/-- C13, amended: the writers do not sort the signatures.  For every frequency table
(a map of maps) the data lines of one coordinate are those of the buckets of that
coordinate with at least two supporters, in the order in which the signature map of
the coordinate is visited; two tables with the same buckets give the same data lines
up to their order, so the report is determined by the contents of the table only up
to the order of the lines within a coordinate. -/
theorem report_order_within_coordinate (insmap insmap2 : InsMap) (delmap delmap2 : DelMap)
    (hins : TableWF insmap) (hins2 : TableWF insmap2)
    (hdel : TableWF delmap) (hdel2 : TableWF delmap2)
    (hsameIns : (buckets insmap).Perm (buckets insmap2))
    (hsameDel : (buckets delmap).Perm (buckets delmap2)) :
    (∀ p ∈ insmap, ((reported insmap).filter fun b => decide (b.1 = p.1)) =
      (p.2.map fun q => (p.1, q.1, q.2)).filter fun b => decide (2 ≤ b.2.2.length)) ∧
    (∀ p ∈ delmap, ((reported delmap).filter fun b => decide (b.1 = p.1)) =
      (p.2.map fun q => (p.1, q.1, q.2)).filter fun b => decide (2 ≤ b.2.2.length)) ∧
    (insDataLines insmap).Perm (insDataLines insmap2) ∧
    (delDataLines delmap).Perm (delDataLines delmap2) := by
  refine ⟨fun p hp => reported_filter_coord hins hp,
    fun p hp => reported_filter_coord hdel hp, ?_, ?_⟩
  · exact (((reported_perm hins).trans (hsameIns.filter _)).trans
      (reported_perm hins2).symm).map insLine
  · exact (((reported_perm hdel).trans (hsameDel.filter _)).trans
      (reported_perm hdel2).symm).map delLine

/-- C13 amended, on the insertion table visited at `G` first and its twin visited at
`AC` first, and on the deletion table visited at length 3 first. -/
theorem report_order_within_coordinate_witness :
    (TableWF tableInsGFirst ∧ TableWF tableInsACFirst ∧ TableWF tableDel3First ∧
      (buckets tableInsGFirst).Perm (buckets tableInsACFirst) ∧
      (buckets tableDel3First).Perm (buckets tableDel3First)) ∧
    ((∀ p ∈ tableInsGFirst, ((reported tableInsGFirst).filter fun b => decide (b.1 = p.1)) =
      (p.2.map fun q => (p.1, q.1, q.2)).filter fun b => decide (2 ≤ b.2.2.length)) ∧
    (∀ p ∈ tableDel3First, ((reported tableDel3First).filter fun b => decide (b.1 = p.1)) =
      (p.2.map fun q => (p.1, q.1, q.2)).filter fun b => decide (2 ≤ b.2.2.length)) ∧
    (insDataLines tableInsGFirst).Perm (insDataLines tableInsACFirst) ∧
    (delDataLines tableDel3First).Perm (delDataLines tableDel3First)) :=
  ⟨⟨by decide, by decide, by decide, by decide, by decide⟩,
    report_order_within_coordinate tableInsGFirst tableInsACFirst tableDel3First
      tableDel3First (by decide) (by decide) (by decide) (by decide) (by decide) (by decide)⟩

theorem wrap64_of_inRange {x : Int} (hlo : -9223372036854775808 ≤ x) (hhi : x ≤ maxInt64) :
    wrap64 x = x := by
  unfold maxInt64 at hhi
  unfold wrap64
  omega

theorem wrap64_of_overflow {x : Int} (hlo : maxInt64 < x)
    (hhi : x ≤ maxInt64 + maxInt64) : wrap64 x < 0 := by
  unfold maxInt64 at hlo hhi
  unfold wrap64
  omega

/-- The machine-level interpreter, kind by kind. -/
theorem interpret64_eq (maxAlloc : Int) (t : CigarOpType) (q r n : Int) (seq : ByteSlice) :
    interpret64 maxAlloc t q r n seq =
      match t with
      | .CigarMatch | .CigarEqual | .CigarMismatch =>
        (sliceExpr seq q (add64 q n)).map fun s => (add64 q n, add64 r n, s)
      | .CigarInsertion | .CigarSoftClipped => some (add64 q n, r, ByteSlice.ofList [])
      | .CigarDeletion => (makeBytes maxAlloc '-' n).map fun g => (q, add64 r n, g)
      | .CigarSkipped => (makeBytes maxAlloc '*' n).map fun g => (q, add64 r n, g)
      | .CigarHardClipped | .CigarPadded => some (q, r, ByteSlice.ofList []) := by
  cases t <;>
    simp [interpret64, CigarOpType.opString, getCigarOperationMapNoInsertions64, mapGet]

theorem sliceExpr_isSome (seq : ByteSlice) (lo hi : Int) :
    (sliceExpr seq lo hi).isSome ↔ 0 ≤ lo ∧ lo ≤ hi ∧ hi ≤ (seq.cap : Int) := by
  unfold sliceExpr
  split <;> simp_all

/-- With offsets and length that are non-negative Go `int`s, the slice of a match
operation is in range exactly when `query_start + length` is at most the capacity. -/
theorem sliceExpr_add64_isSome (seq : ByteSlice) (q n : Int)
    (hq : 0 ≤ q) (hq1 : q ≤ maxInt64) (hn : 0 ≤ n) (hn1 : n ≤ maxInt64)
    (hcap : (seq.cap : Int) ≤ maxInt64) :
    (sliceExpr seq q (add64 q n)).isSome ↔ q + n ≤ (seq.cap : Int) := by
  rw [sliceExpr_isSome]
  by_cases h : q + n ≤ maxInt64
  · rw [add64, wrap64_of_inRange (by omega) h]
    constructor
    · intro h1; exact h1.2.2
    · intro h1; exact ⟨hq, by omega, h1⟩
  · have hneg : add64 q n < 0 := wrap64_of_overflow (by omega) (by omega)
    constructor
    · intro h1; omega
    · intro h1; omega

theorem makeBytes_isSome (maxAlloc : Int) (c : Char) (n : Int) :
    (makeBytes maxAlloc c n).isSome ↔ 0 ≤ n ∧ n ≤ maxAlloc := by
  unfold makeBytes
  split <;> simp_all

/-- One iteration of the machine-level walk: the reference offset after it, and the
events it sent, all at the reference offset before it. -/
theorem walkOp64_some {maxAlloc : Int} {QNAME : String} {SEQ : ByteSlice}
    {st st1 : WalkState} {op : CigarOp}
    (h : walkOp64 maxAlloc QNAME SEQ st op = some st1) :
    st1.rstart = (if op.opType.consumesRef then add64 st.rstart op.len else st.rstart) ∧
    ∃ em, st1.sent = st.sent ++ em ∧ ∀ e ∈ em, e.coord = st.rstart := by
  obtain ⟨t, n⟩ := op
  cases t <;>
    simp [walkOp64, CigarOpType.opString, getCigarOperationMapNoInsertions64, mapGet,
      Option.bind_eq_some, Option.map_eq_some] at h
  all_goals
    obtain ⟨_, _, rfl⟩ := h
    refine ⟨by simp [CigarOpType.consumesRef], ?_⟩
    first
      | (refine ⟨[], ?_, ?_⟩
         · simp
         · simp)
      | (refine ⟨[_], rfl, ?_⟩
         simp [IndelEvent.coord])

/-- As long as the reference offset cannot leave the range of a Go `int`, the
coordinates of the events of a completed machine-level walk never decrease and never
fall below the reference offset the walk started at. -/
theorem walkOps64_coords {maxAlloc : Int} {QNAME : String} {SEQ : ByteSlice} :
    ∀ (ops : List CigarOp) (st fin : WalkState), (∀ op ∈ ops, 0 ≤ op.len) →
      0 ≤ st.rstart → st.rstart + refLen ops ≤ maxInt64 →
      walkOps64 maxAlloc QNAME SEQ st ops = some fin →
      ∃ tail, fin.sent = st.sent ++ tail ∧
        (tail.map IndelEvent.coord).Sorted (· ≤ ·) ∧
        ∀ c ∈ tail.map IndelEvent.coord, st.rstart ≤ c
  | [], st, fin, _, _, _, h => by
    simp only [walkOps64, Option.some.injEq] at h
    exact ⟨[], by simp [h], by simp, by simp⟩
  | op :: ops, st, fin, hlen, hr, hbound, h => by
    simp only [walkOps64, Option.bind_eq_some] at h
    obtain ⟨st1, h1, h2⟩ := h
    have hop : 0 ≤ op.len := hlen op (List.mem_cons_self _ _)
    have hrest : ∀ o ∈ ops, 0 ≤ o.len := fun o ho => hlen o (List.mem_cons_of_mem _ ho)
    have hnn : 0 ≤ refLen ops := by
      unfold refLen
      apply List.sum_nonneg
      intro x hx
      obtain ⟨o, ho, rfl⟩ := List.mem_map.mp hx
      exact hrest o (List.mem_filter.mp ho).1
    have hcons : refLen (op :: ops) =
        (if op.opType.consumesRef then op.len else 0) + refLen ops := by
      unfold refLen
      by_cases hc : op.opType.consumesRef = true
      · simp [List.filter_cons, hc]
      · simp [List.filter_cons, hc]
    rw [hcons] at hbound
    obtain ⟨hr1, em, hs, hem⟩ := walkOp64_some h1
    have hstep : st1.rstart = st.rstart + (if op.opType.consumesRef then op.len else 0) := by
      rw [hr1]
      by_cases hc : op.opType.consumesRef = true
      · rw [if_pos hc, if_pos hc] at *
        exact wrap64_of_inRange (by omega) (by omega)
      · rw [if_neg hc, if_neg hc]
        omega
    have ha : 0 ≤ (if op.opType.consumesRef = true then op.len else 0) := by
      split <;> omega
    generalize (if op.opType.consumesRef = true then op.len else 0) = a at hbound hstep ha
    obtain ⟨tail, ht, hsorted, hge⟩ :=
      walkOps64_coords ops st1 fin hrest (by omega) (by omega) h2
    have hemc : ∀ c ∈ em.map IndelEvent.coord, c = st.rstart := by
      intro c hc
      obtain ⟨e, he, rfl⟩ := List.mem_map.mp hc
      exact hem e he
    refine ⟨em ++ tail, by rw [ht, hs, List.append_assoc], ?_, ?_⟩
    · rw [List.map_append]
      refine List.pairwise_append.mpr ⟨?_, hsorted, ?_⟩
      · apply List.pairwise_of_forall_mem_list
        intro x hx y hy
        rw [hemc x hx, hemc y hy]
      · intro x hx y hy
        rw [hemc x hx]
        have := hge y hy
        omega
    · intro c hc
      rw [List.map_append, List.mem_append] at hc
      rcases hc with hc | hc
      · rw [hemc c hc]
      · have := hge c hc
        omega

/-! ## The two readings agree on records that stay in range -/

theorem sliceExpr_ofList_bytes (SEQ : List Char) (lo hi : Int) :
    (sliceExpr (ByteSlice.ofList SEQ) lo hi).map ByteSlice.bytes = sliceBytes SEQ lo hi := by
  unfold sliceExpr sliceBytes ByteSlice.cap ByteSlice.ofList
  split <;> simp [ByteSlice.bytes]

/-- One iteration of the walk reads the same at machine level when no addition
leaves the range of a Go `int` and the allocation of a DELETE or REF_SKIP is within
the limit. -/
theorem walkOp64_eq_walkOp (maxAlloc : Int) (QNAME : String) (SEQ : List Char)
    (st : WalkState) (op : CigarOp)
    (hq : 0 ≤ st.qstart) (hq1 : st.qstart + op.len ≤ maxInt64)
    (hr : 0 ≤ st.rstart) (hr1 : st.rstart + op.len ≤ maxInt64)
    (hlen : 0 ≤ op.len) (halloc : op.len ≤ maxAlloc) :
    walkOp64 maxAlloc QNAME (ByteSlice.ofList SEQ) st op = walkOp QNAME SEQ st op := by
  obtain ⟨t, n⟩ := op
  simp only at hq1 hr1 hlen halloc
  have hqa : add64 st.qstart n = st.qstart + n := wrap64_of_inRange (by omega) hq1
  have hra : add64 st.rstart n = st.rstart + n := wrap64_of_inRange (by omega) hr1
  have hsl := sliceExpr_ofList_bytes SEQ st.qstart (st.qstart + n)
  cases t <;>
    simp [walkOp64, walkOp, CigarOpType.opString, getCigarOperationMapNoInsertions64,
      getCigarOperationMapNoInsertions, mapGet, hqa, hra, makeBytes, makeFilled, hlen, halloc]
  all_goals
    rw [← hsl]
    cases sliceExpr (ByteSlice.ofList SEQ) st.qstart (st.qstart + n) <;> simp

/-- The walk reads the same at machine level when its offsets cannot leave the range
of a Go `int` and every length is within the allocation limit. -/
theorem walkOps64_eq_walkOps (maxAlloc : Int) (QNAME : String) (SEQ : List Char)
    (bound : Int) (hbound : bound ≤ maxInt64) :
    ∀ (ops : List CigarOp) (st : WalkState),
      (∀ op ∈ ops, 0 ≤ op.len ∧ op.len ≤ maxAlloc) →
      0 ≤ st.qstart → 0 ≤ st.rstart →
      st.qstart + (ops.map CigarOp.len).sum ≤ bound →
      st.rstart + (ops.map CigarOp.len).sum ≤ bound →
      walkOps64 maxAlloc QNAME (ByteSlice.ofList SEQ) st ops = walkOps QNAME SEQ st ops
  | [], _, _, _, _, _, _ => rfl
  | op :: ops, st, hlen, hq, hr, hqb, hrb => by
    obtain ⟨hop, hopa⟩ := hlen op (List.mem_cons_self _ _)
    have hrest : ∀ o ∈ ops, 0 ≤ o.len ∧ o.len ≤ maxAlloc :=
      fun o ho => hlen o (List.mem_cons_of_mem _ ho)
    have hnn : 0 ≤ (ops.map CigarOp.len).sum := by
      apply List.sum_nonneg
      intro x hx
      obtain ⟨o, ho, rfl⟩ := List.mem_map.mp hx
      exact (hrest o ho).1
    simp only [List.map_cons, List.sum_cons] at hqb hrb
    rw [walkOps64, walkOps,
      walkOp64_eq_walkOp maxAlloc QNAME SEQ st op hq (by omega) hr (by omega) hop hopa]
    cases h1 : walkOp QNAME SEQ st op with
    | none => rfl
    | some st1 =>
      obtain ⟨hr1, hq1, -, -⟩ := walkOp_some h1
      simp only [Option.some_bind]
      have hqs : st1.qstart ≤ st.qstart + op.len := by rw [hq1]; split <;> omega
      have hqs0 : 0 ≤ st1.qstart := by rw [hq1]; split <;> omega
      have hrs : st1.rstart ≤ st.rstart + op.len := by rw [hr1]; split <;> omega
      have hrs0 : 0 ≤ st1.rstart := by rw [hr1]; split <;> omega
      exact walkOps64_eq_walkOps maxAlloc QNAME SEQ bound hbound ops st1 hrest hqs0 hrs0
        (by omega) (by omega)

/-- On a mapped record whose lengths are non-negative and within the allocation limit
and whose `Pos` plus all its lengths stays in the range of a Go `int`, `getIndels` reads
the same at machine level. -/
theorem getIndelsRecord64_eq (maxAlloc : Int) (samLine : Record)
    (hmapped : 0 ≤ samLine.Pos)
    (hlen : ∀ op ∈ samLine.Cigar, 0 ≤ op.len ∧ op.len ≤ maxAlloc)
    (hrange : samLine.Pos + (samLine.Cigar.map CigarOp.len).sum ≤ maxInt64) :
    getIndelsRecord64 maxAlloc samLine = getIndelsRecord samLine := by
  unfold getIndelsRecord64 getIndelsRecord
  simp only
  rw [walkOps64_eq_walkOps maxAlloc samLine.Name samLine.Seq maxInt64 (le_refl _)
    samLine.Cigar _ hlen (le_refl _) hmapped (by simpa using (by omega : _)) hrange]

/-! ## Claims settled at machine level -/

/-- C10, as the claim states it, fails: the reference offset is a Go `int` and wraps.
The mapped read `r1` at `Pos = 2^63 - 1` with `1I1M1I` and non-negative lengths completes
its walk; its first insertion is anchored at `2^63 - 1`, the match wraps the reference
offset to `-2^63`, and the second insertion is anchored there: the coordinates
decrease, and the second one is below `Pos`. -/
theorem getIndels_coordinates_wrap :
    (0 ≤ readAtMaxInt.Pos ∧ readAtMaxInt.Pos ≤ maxInt64 ∧
      ∀ op ∈ readAtMaxInt.Cigar, 0 ≤ op.len) ∧
    (getIndelsRecord64 maxAllocAmd64 readAtMaxInt).walk =
      some { qstart := 3, rstart := -9223372036854775808,
             sent := [IndelEvent.ins ⟨"r1", 9223372036854775807, "A"⟩,
                      IndelEvent.ins ⟨"r1", -9223372036854775808, "G"⟩] } ∧
    ¬ (([IndelEvent.ins ⟨"r1", 9223372036854775807, "A"⟩,
          IndelEvent.ins ⟨"r1", -9223372036854775808, "G"⟩].map
        IndelEvent.coord).Sorted (· ≤ ·)) ∧
    ¬ (∀ c ∈ [IndelEvent.ins ⟨"r1", 9223372036854775807, "A"⟩,
          IndelEvent.ins ⟨"r1", -9223372036854775808, "G"⟩].map IndelEvent.coord,
        readAtMaxInt.Pos ≤ c) := by
  decide

/-- C10, amended: for a mapped record with non-negative operation lengths whose
`Pos` plus the sum of the lengths of its reference-consuming operations is at most
`2^63 - 1` (the reference offset never leaves the range of a Go `int`) and whose walk
completes, the reference coordinates of the events sent by `getIndels`, insertions and
deletions together in the order of the sends, never decrease, and each of them is at
least the record's `Pos`. -/
theorem getIndels_coordinates_monotone_in_range (maxAlloc : Int) (samLine : Record)
    (fin : WalkState)
    (hmapped : 0 ≤ samLine.Pos)
    (hlen : ∀ op ∈ samLine.Cigar, 0 ≤ op.len)
    (hrange : samLine.Pos + refLen samLine.Cigar ≤ maxInt64)
    (hwalk : (getIndelsRecord64 maxAlloc samLine).walk = some fin) :
    (fin.sent.map IndelEvent.coord).Sorted (· ≤ ·) ∧
    ∀ c ∈ fin.sent.map IndelEvent.coord, samLine.Pos ≤ c := by
  obtain ⟨tail, ht, hs, hge⟩ :=
    walkOps64_coords samLine.Cigar _ fin hlen hmapped hrange hwalk
  simp only [List.nil_append] at ht
  rw [ht]
  exact ⟨hs, hge⟩

/-- C10 amended, on the read `r7` at offset 100 with `2M1I2M2D1N2M`: coordinates 102, 104. -/
theorem getIndels_coordinates_monotone_in_range_witness :
    (0 ≤ readMixed.Pos ∧ (∀ op ∈ readMixed.Cigar, 0 ≤ op.len) ∧
      readMixed.Pos + refLen readMixed.Cigar ≤ maxInt64 ∧
      (getIndelsRecord64 maxAllocAmd64 readMixed).walk =
        some { qstart := 7, rstart := 109,
               sent := [IndelEvent.ins ⟨"r7", 102, "G"⟩, IndelEvent.del ⟨"r7", 104, 2⟩] }) ∧
    (([IndelEvent.ins ⟨"r7", 102, "G"⟩, IndelEvent.del ⟨"r7", 104, 2⟩].map
        IndelEvent.coord).Sorted (· ≤ ·) ∧
      ∀ c ∈ [IndelEvent.ins ⟨"r7", 102, "G"⟩, IndelEvent.del ⟨"r7", 104, 2⟩].map
        IndelEvent.coord, readMixed.Pos ≤ c) :=
  ⟨⟨by decide, by decide, by decide, by decide⟩,
    getIndels_coordinates_monotone_in_range maxAllocAmd64 readMixed
      { qstart := 7, rstart := 109,
        sent := [IndelEvent.ins ⟨"r7", 102, "G"⟩, IndelEvent.del ⟨"r7", 104, 2⟩] }
      (by decide) (by decide) (by decide) (by decide)⟩

/-- C16, as the claim states it, fails, with non-negative lengths and offsets:
`ALIGN_MATCH` of length 5 at query offset 0 on three bases without spare capacity
takes the slice `seq[0:5]`, out of range; `ALIGN_MATCH` of length 1 at query offset
`2^63 - 1` wraps its upper index; `DELETE` of length `2^62` asks `make` for more than the
allocation limit. -/
theorem interpreter_not_total :
    interpret64 maxAllocAmd64 CigarOpType.CigarMatch 0 0 5 (ByteSlice.ofList "ACG".toList) = none ∧
    interpret64 maxAllocAmd64 CigarOpType.CigarMatch 9223372036854775807 0 1
      (ByteSlice.ofList "ACG".toList) = none ∧
    interpret64 maxAllocAmd64 CigarOpType.CigarDeletion 0 0 4611686018427387904
      (ByteSlice.ofList "ACG".toList) = none := by
  decide

/-- C16, amended: on a 64-bit platform, for every length and offsets that are
non-negative Go `int`s and every byte slice, the function of the table returns a
result for INSERT, SOFT_CLIP, HARD_CLIP and PAD; for ALIGN_MATCH, SEQ_MATCH and SEQ_MISMATCH
it returns exactly when `query_offset + length` is at most the capacity of the slice
(its length, for the expanded bases of a record), and otherwise its slice expression
is out of range; for DELETE and REF_SKIP it returns exactly when the length is at most
the allocation limit of `make`. -/
theorem interpreter_returns_iff_machine (maxAlloc : Int) (t : CigarOpType)
    (query_offset reference_offset length : Int) (seq : ByteSlice)
    (hlen : 0 ≤ length) (hlen1 : length ≤ maxInt64)
    (hq : 0 ≤ query_offset) (hq1 : query_offset ≤ maxInt64)
    (hr : 0 ≤ reference_offset) (hr1 : reference_offset ≤ maxInt64)
    (hcap : (seq.cap : Int) ≤ maxInt64) :
    (interpret64 maxAlloc t query_offset reference_offset length seq).isSome ↔
      ((t ∈ [CigarOpType.CigarMatch, CigarOpType.CigarEqual, CigarOpType.CigarMismatch] →
          query_offset + length ≤ (seq.cap : Int)) ∧
        (t ∈ [CigarOpType.CigarDeletion, CigarOpType.CigarSkipped] → length ≤ maxAlloc)) := by
  have _ := hr
  have _ := hr1
  have hs := sliceExpr_add64_isSome seq query_offset length hq hq1 hlen hlen1 hcap
  have hm1 := makeBytes_isSome maxAlloc '-' length
  have hm2 := makeBytes_isSome maxAlloc '*' length
  rw [interpret64_eq]
  cases t <;> simp [hs, hm1, hm2, hlen]

/-- C16 amended, on `ALIGN_MATCH` of length 5 at query offset 0 on three bases held in a
slice of capacity 8: the call returns, with the five first cells. -/
theorem interpreter_returns_iff_machine_witness :
    ((0 : Int) ≤ 5 ∧ (5 : Int) ≤ maxInt64 ∧ (0 : Int) ≤ 0 ∧ (0 : Int) ≤ maxInt64 ∧
      (spareCapacitySlice.cap : Int) ≤ maxInt64 ∧
      interpret64 maxAllocAmd64 CigarOpType.CigarMatch 0 0 5 spareCapacitySlice =
        some (5, 5, { cells := "ACGTTTTT".toList, len := 5 })) ∧
    ((interpret64 maxAllocAmd64 CigarOpType.CigarMatch 0 0 5 spareCapacitySlice).isSome ↔
      ((CigarOpType.CigarMatch ∈
            [CigarOpType.CigarMatch, CigarOpType.CigarEqual, CigarOpType.CigarMismatch] →
          (0 : Int) + 5 ≤ (spareCapacitySlice.cap : Int)) ∧
        (CigarOpType.CigarMatch ∈ [CigarOpType.CigarDeletion, CigarOpType.CigarSkipped] →
          (5 : Int) ≤ maxAllocAmd64))) :=
  ⟨⟨by decide, by decide, by decide, by decide, by decide, by decide⟩,
    interpreter_returns_iff_machine maxAllocAmd64 CigarOpType.CigarMatch 0 0 5
      spareCapacitySlice (by decide) (by decide) (by decide) (by decide) (by decide)
      (by decide) (by decide)⟩

end Indels
